import Mathlib

/-!
Verification of the `agent-commander` core (Rust repository), shallowly embedded
in Lean 4.

The embedding covers, translated from the source:
* `src/streaming/ndjson.rs` — the NDJSON codec (`parse_ndjson_line`,
  `stringify_ndjson_line`, `parse_ndjson`, `stringify_ndjson`);
* `src/streaming/output_stream.rs` — the stateful `JsonOutputStream`
  (`process`, `flush`, `reset`, `get_messages`, `get_errors`);
* `src/executor.rs` — `execute_command` (dry-run and spawn paths),
  `ProcessHandle` with `wait_for_exit` / `get_output`, `start_command`,
  `execute_detached`;
* `src/lib.rs` — the `Agent` controller (`new`, `start`, `stop`).

Strings are modelled as `List Char` (Rust `&str` is a sequence of chars for the
purposes of these claims); whitespace is modelled as the four ASCII whitespace
characters used by JSON (the Rust `char::is_whitespace` also accepts rarer
Unicode whitespace, which no claim here exercises).

JSON values (`serde_json::Value`) are modelled by the inductive `Json` below,
with numbers restricted to integers (serde's float/decimal forms are outside
the model) and objects as ordered field lists.  `serde_json::from_str`,
`serde_json::to_string` and `serde_json::to_string_pretty` are modelled by a
structurally faithful recursive-descent parser and by compact / pretty
renderers mirroring serde's output format (2-space indentation, `": "` member
separator in pretty mode, serde's escape table for strings).

Asynchronous process execution is modelled by a deterministic `World` mapping
each spawned shell command to the behaviour of the resulting child process,
and every executor/controller operation additionally reports the list of
commands it actually spawned, so "never spawns" claims are statable.  The
command-builder and the per-tool session-id extractors are passed in as
function parameters, matching the specification's treatment of them as
external string-producing collaborators.
-/

namespace AgentCommander

/-! ## Character-level utilities (Rust `str` operations on `List Char`) -/

/-- ASCII whitespace: the characters JSON skips and the ones `str::trim`
removes on the inputs exercised here. -/
def isWsChar (ch : Char) : Bool :=
  ch == ' ' || ch == '\t' || ch == '\n' || ch == '\r'

/-- Drop leading whitespace (the left half of `str::trim`, and the parser's
whitespace skipping). -/
def dropWsLeft : List Char → List Char
  | [] => []
  | c :: r => if isWsChar c then dropWsLeft r else c :: r

/-- Rust `str::trim`: drop whitespace from both ends. -/
def trimChars (s : List Char) : List Char :=
  (dropWsLeft (dropWsLeft s).reverse).reverse

/-- Prepend a character to the first complete line, or to the pending piece
when no complete line exists. -/
def consFirst (c : Char) : List (List Char) × List Char → List (List Char) × List Char
  | ([], p) => ([], c :: p)
  | (l :: ls, p) => ((c :: l) :: ls, p)

/-- Rust `str::split('\n')`, returning all pieces but the last, paired with the
last piece.  `split` always yields at least one piece, so this decomposition is
total: `pieces = fst ++ [snd]`. -/
def splitNl : List Char → List (List Char) × List Char
  | [] => ([], [])
  | c :: r =>
    if c = '\n' then ([] :: (splitNl r).1, (splitNl r).2)
    else consFirst c (splitNl r)

/-- Strip one trailing `'\r'`, as `str::lines` does on each piece. -/
def stripCr (l : List Char) : List Char :=
  if l.getLast? = some '\r' then l.dropLast else l

/-- Rust `str::lines()`: split on `'\n'`, treat the newline as a terminator
(no trailing empty piece), and strip a trailing `'\r'` from each line. -/
def rustLines (s : List Char) : List (List Char) :=
  let (ls, p) := splitNl s
  (if p = [] then ls else ls ++ [p]).map stripCr

/-! ## The JSON value model (`serde_json::Value` with integer numbers) -/

/-- A JSON value: the model of `serde_json::Value`.  Numbers are integers
(float forms are outside the model); objects are ordered association lists. -/
inductive Json where
  | null
  | bool (b : Bool)
  | num (i : Int)
  | str (cs : List Char)
  | arr (elems : List Json)
  | obj (fields : List (List Char × Json))

/-- Rust `Value::is_null`. -/
def Json.isNull : Json → Bool
  | .null => true
  | _ => false

/-- Whether a value is an object or an array (the "candidate" shapes of the
NDJSON codec). -/
def Json.isContainer : Json → Bool
  | .arr _ => true
  | .obj _ => true
  | _ => false

/-! ## Decimal digits -/

/-- The decimal digit character for `n % 10`. -/
def digitChar (n : Nat) : Char := Char.ofNat (48 + n % 10)

/-- Decimal digit characters of `n`, most significant first; `fuel` bounds the
recursion depth (any `fuel ≥ n` is exact). -/
def natCharsAux : Nat → Nat → List Char
  | 0, _ => []
  | fuel + 1, n => if n = 0 then [] else natCharsAux fuel (n / 10) ++ [digitChar (n % 10)]

/-- Decimal digit characters of a natural number. -/
def natChars (n : Nat) : List Char :=
  if n = 0 then ['0'] else natCharsAux n n

/-- Decimal characters of an integer: optional minus sign, then digits. -/
def intChars (i : Int) : List Char :=
  if i < 0 then '-' :: natChars i.natAbs else natChars i.natAbs

/-! ## String escaping (serde's escape table) -/

/-- Lowercase hex digit for `n < 16`. -/
def lowHexChar (n : Nat) : Char :=
  Char.ofNat (if n < 10 then 48 + n else 87 + n)

/-- One character, JSON-escaped exactly as serde's serializer emits it. -/
def escChar (c : Char) : List Char :=
  if c = '\"' then ['\\', '\"']
  else if c = '\\' then ['\\', '\\']
  else if c = '\x08' then ['\\', 'b']
  else if c = '\t' then ['\\', 't']
  else if c = '\n' then ['\\', 'n']
  else if c = '\x0c' then ['\\', 'f']
  else if c = '\r' then ['\\', 'r']
  else if c.toNat < 32 then
    ['\\', 'u', '0', '0', lowHexChar (c.toNat / 16), lowHexChar (c.toNat % 16)]
  else [c]

/-- A rendered JSON string: quote, escaped characters, quote. -/
def escString (s : List Char) : List Char :=
  '\"' :: (s.flatMap escChar ++ ['\"'])

/-! ## Rendering (`serde_json::to_string` / `to_string_pretty`)

The two output modes differ only in whitespace, so one renderer family is
parameterized by a `pretty` flag and the current nesting depth `d`; serde's
pretty format uses two-space indentation, a newline after every opening
bracket and comma, a newline before every closing bracket, and `": "` between
a key and its value. -/

/-- Two spaces per indentation level. -/
def indentChars : Nat → List Char
  | 0 => []
  | d + 1 => ' ' :: ' ' :: indentChars d

/-- Whitespace after an opening bracket / after a separating comma: nothing in
compact mode, newline plus one-deeper indentation in pretty mode. -/
def openGap (p : Bool) (d : Nat) : List Char :=
  if p then '\n' :: indentChars (d + 1) else []

/-- Whitespace before a closing bracket: nothing in compact mode, newline plus
current indentation in pretty mode. -/
def closeGap (p : Bool) (d : Nat) : List Char :=
  if p then '\n' :: indentChars d else []

/-- Whitespace after the `':'` of an object member: one space in pretty mode. -/
def colonGap (p : Bool) : List Char :=
  if p then [' '] else []

mutual

/-- Render a value at depth `d`; `p = false` models `serde_json::to_string`,
`p = true` models `serde_json::to_string_pretty`. -/
def renderJson (p : Bool) (d : Nat) : Json → List Char
  | .null => 'n' :: "ull".toList
  | .bool true => 't' :: "rue".toList
  | .bool false => 'f' :: "alse".toList
  | .num i => intChars i
  | .str s => escString s
  | .arr [] => ['[', ']']
  | .arr (x :: xs) =>
    '[' :: (openGap p d ++ renderJson p (d + 1) x ++ renderMoreElems p d xs ++
      closeGap p d ++ [']'])
  | .obj [] => ['\x7b', '\x7d']
  | .obj (m :: ms) =>
    '\x7b' :: (openGap p d ++ renderMember p d m ++ renderMoreMembers p d ms ++
      closeGap p d ++ ['\x7d'])

/-- Render one object member (`"key": value`). -/
def renderMember (p : Bool) (d : Nat) : List Char × Json → List Char
  | (k, v) => escString k ++ ':' :: (colonGap p ++ renderJson p (d + 1) v)

/-- Render `, elem` for each remaining array element. -/
def renderMoreElems (p : Bool) (d : Nat) : List Json → List Char
  | e :: es => ',' :: (openGap p d ++ renderJson p (d + 1) e ++ renderMoreElems p d es)
  | [] => []

/-- Render `, "key": value` for each remaining object member. -/
def renderMoreMembers (p : Bool) (d : Nat) : List (List Char × Json) → List Char
  | [] => []
  | m :: ms => ',' :: (openGap p d ++ renderMember p d m ++ renderMoreMembers p d ms)

end

/-- Model of `serde_json::to_string` (compact, single-line for any value whose
strings have their newlines escaped — which escaping guarantees). -/
def jsonToString (v : Json) : List Char := renderJson false 0 v

/-- Model of `serde_json::to_string_pretty` (2-space indented, multi-line for
nonempty arrays and objects). -/
def jsonToStringPretty (v : Json) : List Char := renderJson true 0 v

/-! ## Parsing (`serde_json::from_str`)

A recursive-descent parser over `List Char`, structurally recursive on a fuel
counter so that it is total and kernel-reducible.  It implements the JSON
grammar as serde accepts it, restricted like the value model: numbers are
integer (no fraction/exponent forms), and `\uXXXX` escapes denote single
scalar values (no surrogate pairs).  Parse failures are `none` — the codec
call site in `ndjson.rs` discards the error value with `.ok()` anyway. -/

/-- Value of one hex digit character. -/
def hexDigitVal (c : Char) : Option Nat :=
  if '0' ≤ c ∧ c ≤ '9' then some (c.toNat - 48)
  else if 'a' ≤ c ∧ c ≤ 'f' then some (c.toNat - 87)
  else if 'A' ≤ c ∧ c ≤ 'F' then some (c.toNat - 55)
  else none

/-- Value of a four-hex-digit escape. -/
def hex4 (e1 e2 e3 e4 : Char) : Option Nat := do
  let x1 ← hexDigitVal e1
  let x2 ← hexDigitVal e2
  let x3 ← hexDigitVal e3
  let x4 ← hexDigitVal e4
  return ((x1 * 16 + x2) * 16 + x3) * 16 + x4

/-- A `\uXXXX` value that is a valid Unicode scalar (not a surrogate). -/
def isValidScalar (n : Nat) : Bool := n < 0xd800 || (0xe000 ≤ n && n < 0x110000)

/-- The single-character escapes accepted after a backslash. -/
def shortEsc (e : Char) : Option Char :=
  if e = '\"' then some '\"'
  else if e = '\\' then some '\\'
  else if e = '/' then some '/'
  else if e = 'b' then some '\x08'
  else if e = 'f' then some '\x0c'
  else if e = 'n' then some '\n'
  else if e = 'r' then some '\r'
  else if e = 't' then some '\t'
  else none

/-- Parse the body of a JSON string after the opening quote, returning the
decoded characters and the input after the closing quote.  Raw control
characters are rejected, as serde rejects them. -/
def parseStringBody : Nat → List Char → Option (List Char × List Char)
  | 0, _ => none
  | fuel + 1, s =>
    match s with
    | [] => none
    | c :: r =>
      if c = '\"' then some ([], r)
      else if c = '\\' then
        match r with
        | 'u' :: a :: b :: ch :: d :: r2 =>
          match hex4 a b ch d with
          | some n =>
            if isValidScalar n then
              (parseStringBody fuel r2).map (fun q => (Char.ofNat n :: q.1, q.2))
            else none
          | none => none
        | e :: r2 =>
          match shortEsc e with
          | some ch => (parseStringBody fuel r2).map (fun q => (ch :: q.1, q.2))
          | none => none
        | [] => none
      else if c.toNat < 32 then none
      else (parseStringBody fuel r).map (fun q => (c :: q.1, q.2))

/-- Parse a JSON string body with enough fuel for the whole input. -/
def parseJsonString (s : List Char) : Option (List Char × List Char) :=
  parseStringBody (s.length + 1) s

/-- Decimal digit test. -/
def isDigitCh (ch : Char) : Bool := '0' ≤ ch && ch ≤ '9'

/-- Split a leading run of decimal digits from the input. -/
def takeDigits : List Char → List Char × List Char
  | [] => ([], [])
  | c :: r =>
    if isDigitCh c then
      let (ds, rest) := takeDigits r
      (c :: ds, rest)
    else ([], c :: r)

/-- Numeric value of a digit run. -/
def digitsVal (ds : List Char) : Nat :=
  ds.foldl (fun acc c => acc * 10 + (c.toNat - 48)) 0

/-- A remainder that cannot extend a rendered number: empty, or headed by a
non-digit.  Every position following a rendered value inside NDJSON output —
a comma, a closing bracket, whitespace, or end of input — qualifies. -/
def numDelimOk : List Char → Bool
  | [] => true
  | c0 :: _ => not (isDigitCh c0)

/-- Parse an integer JSON number: optional minus sign, then a nonempty digit
run (the model does not cover fraction or exponent forms). -/
def parseNumber (s : List Char) : Option (Int × List Char) :=
  if s.head? = some '-' then
    let (ds, rest) := takeDigits s.tail
    if ds = [] then none else some (-(digitsVal ds : Int), rest)
  else
    let (ds, rest) := takeDigits s
    if ds = [] then none else some ((digitsVal ds : Int), rest)

mutual

/-- Parse one JSON value from an input whose leading whitespace has already
been skipped. -/
def parseJsonValue : Nat → List Char → Option (Json × List Char)
  | 0, _ => none
  | fuel + 1, s =>
    match s with
    | [] => none
    | c :: r =>
      if c = 'n' then
        match r with
        | 'u' :: 'l' :: 'l' :: r2 => some (.null, r2)
        | _ => none
      else if c = 't' then
        match r with
        | 'r' :: 'u' :: 'e' :: r2 => some (.bool true, r2)
        | _ => none
      else if c = 'f' then
        match r with
        | 'a' :: 'l' :: 's' :: 'e' :: r2 => some (.bool false, r2)
        | _ => none
      else if c = '\"' then
        (parseJsonString r).map (fun q => (.str q.1, q.2))
      else if c = '[' then
        let r1 := dropWsLeft r
        if r1.head? = some ']' then some (.arr [], r1.tail)
        else (parseElems fuel r1).map (fun q => (.arr q.1, q.2))
      else if c = '\x7b' then
        let r1 := dropWsLeft r
        if r1.head? = some '\x7d' then some (.obj [], r1.tail)
        else (parseMembers fuel r1).map (fun q => (.obj q.1, q.2))
      else if c = '-' || isDigitCh c then
        (parseNumber (c :: r)).map (fun q => (.num q.1, q.2))
      else none

/-- Parse one or more comma-separated array elements up to the closing `']'`. -/
def parseElems : Nat → List Char → Option (List Json × List Char)
  | 0, _ => none
  | fuel + 1, s =>
    match parseJsonValue fuel s with
    | none => none
    | some (v, r) =>
      let r1 := dropWsLeft r
      if r1.head? = some ',' then
        match parseElems fuel (dropWsLeft r1.tail) with
        | some (vs, r2) => some (v :: vs, r2)
        | none => none
      else if r1.head? = some ']' then some ([v], r1.tail)
      else none

/-- Parse one or more comma-separated object members up to the closing brace. -/
def parseMembers : Nat → List Char → Option (List (List Char × Json) × List Char)
  | 0, _ => none
  | fuel + 1, s =>
    if s.head? = some '\"' then
      match parseJsonString s.tail with
      | none => none
      | some (k, r1) =>
        let r2 := dropWsLeft r1
        if r2.head? = some ':' then
          match parseJsonValue fuel (dropWsLeft r2.tail) with
          | none => none
          | some (v, r3) =>
            let r4 := dropWsLeft r3
            if r4.head? = some ',' then
              match parseMembers fuel (dropWsLeft r4.tail) with
              | some (ms, r5) => some ((k, v) :: ms, r5)
              | none => none
            else if r4.head? = some '\x7d' then some ([(k, v)], r4.tail)
            else none
        else none
    else none

end

/-- Model of `serde_json::from_str`: skip leading whitespace, parse one value,
allow trailing whitespace, reject anything else. -/
def fromStr (s : List Char) : Option Json :=
  match parseJsonValue (s.length + 1) (dropWsLeft s) with
  | some (v, r) => if dropWsLeft r = [] then some v else none
  | none => none

/-! ## The NDJSON codec (`src/streaming/ndjson.rs`) -/

/-- Translation of `parse_ndjson_line`: trim; ignore empty lines; require a
`'\x7b'` or `'['` first character; then structural JSON parsing, with failure
mapped to `none` via `.ok()`. -/
def parse_ndjson_line (line : List Char) : Option Json :=
  let trimmed := trimChars line
  if trimmed = [] then none
  else if ¬ (trimmed.head? = some '\x7b' ∨ trimmed.head? = some '[') then none
  else fromStr trimmed

/-- Translation of `stringify_ndjson_line`: empty output for `null`, otherwise
the compact or pretty rendering followed by one newline. -/
def stringify_ndjson_line (value : Json) (compact : Bool) : List Char :=
  if value.isNull then []
  else (if compact then jsonToString value else jsonToStringPretty value) ++ ['\n']

/-- Translation of `parse_ndjson`: parse every line, keeping the successes. -/
def parse_ndjson (data : List Char) : List Json :=
  (rustLines data).filterMap parse_ndjson_line

/-- Translation of `stringify_ndjson`: concatenate the stringified lines. -/
def stringify_ndjson (values : List Json) (compact : Bool) : List Char :=
  (values.map (fun v => stringify_ndjson_line v compact)).flatten

/-! ## The output stream processor (`src/streaming/output_stream.rs`)

The observer callbacks (`on_message`, `on_error`, `on_raw_line`) are
side-effect-only hooks that do not influence the parsing outcome, so the state
model omits them. -/

/-- Error information for failed JSON parses. -/
structure ParseError where
  line : List Char
  line_number : Nat
deriving DecidableEq

/-- The mutable state of a `JsonOutputStream`. -/
structure JsonOutputStream where
  buffer : List Char
  messages : List Json
  errors : List ParseError
  line_count : Nat

/-- Translation of `JsonOutputStream::new`. -/
def JsonOutputStream.new : JsonOutputStream :=
  { buffer := [], messages := [], errors := [], line_count := 0 }

/-- The body of the `for line in complete_lines` loop of `process` (also the
classification applied by `flush` to the final line): count the line, try to
parse it, record the message on success, record a `ParseError` when the line
failed to parse but its trimmed form starts with `'\x7b'`. -/
def processLine (st : JsonOutputStream) (line : List Char) :
    List Json × JsonOutputStream :=
  let n := st.line_count + 1
  match parse_ndjson_line line with
  | some parsed =>
    ([parsed], { st with line_count := n, messages := st.messages ++ [parsed] })
  | none =>
    if (trimChars line).head? = some '\x7b' then
      ([], { st with
              line_count := n
              errors := st.errors ++ [ParseError.mk line n] })
    else ([], { st with line_count := n })

/-- Run `processLine` over a list of completed lines, collecting the newly
parsed messages in order. -/
def processLines (st : JsonOutputStream) : List (List Char) →
    List Json × JsonOutputStream
  | [] => ([], st)
  | l :: ls =>
    let (o1, st1) := processLine st l
    let (o2, st2) := processLines st1 ls
    (o1 ++ o2, st2)

/-- Translation of `JsonOutputStream::process`: append the chunk to the
pending buffer, split on `'\n'`, keep the last (possibly incomplete) piece as
the new buffer, and run every completed line through the classifier. -/
def JsonOutputStream.process (st : JsonOutputStream) (chunk : List Char) :
    List Json × JsonOutputStream :=
  let (completeLines, last) := splitNl (st.buffer ++ chunk)
  processLines { st with buffer := last } completeLines

/-- Translation of `JsonOutputStream::flush`: a no-op on an empty-after-trim
buffer; otherwise treat the whole buffer as one final line. -/
def JsonOutputStream.flush (st : JsonOutputStream) :
    List Json × JsonOutputStream :=
  if trimChars st.buffer = [] then ([], st)
  else processLine { st with buffer := [] } st.buffer

/-- Translation of `JsonOutputStream::get_messages`. -/
def JsonOutputStream.get_messages (st : JsonOutputStream) : List Json :=
  st.messages

/-- Translation of `JsonOutputStream::get_errors`. -/
def JsonOutputStream.get_errors (st : JsonOutputStream) : List ParseError :=
  st.errors

/-- Translation of `JsonOutputStream::reset`. -/
def JsonOutputStream.reset (_st : JsonOutputStream) : JsonOutputStream :=
  JsonOutputStream.new

end AgentCommander


namespace AgentCommander

/-! ## Operation sequences over the output stream

These package `process`/`flush` call sequences so that accumulation claims
can quantify over every client interaction since construction (or since the
last `reset`, whose result coincides with a fresh stream). -/

/-- One client call on a `JsonOutputStream`. -/
inductive StreamOp where
  | processChunk (chunk : List Char)
  | flushBuffer

/-- Run one client call. -/
def runOp (st : JsonOutputStream) : StreamOp → List Json × JsonOutputStream
  | .processChunk c => st.process c
  | .flushBuffer => st.flush

/-- Run a sequence of client calls, concatenating the returned message
vectors in call order. -/
def runOps (st : JsonOutputStream) : List StreamOp → List Json × JsonOutputStream
  | [] => ([], st)
  | op :: ops =>
    let r1 := runOp st op
    let r2 := runOps r1.2 ops
    (r1.1 ++ r2.1, r2.2)

/-- Feed a list of chunks through `process` one after another, concatenating
the returned message vectors. -/
def processAll (st : JsonOutputStream) : List (List Char) → List Json × JsonOutputStream
  | [] => ([], st)
  | c :: cs =>
    let r1 := st.process c
    let r2 := processAll r1.2 cs
    (r1.1 ++ r2.1, r2.2)

/-! ## Fuel measure for the parser inversion -/

mutual

/-- Fuel needed by `parseJsonValue` to traverse a rendered value. -/
def jsize : Json → Nat
  | .arr xs => 1 + esize xs
  | .obj ms => 1 + msize ms
  | _ => 1

/-- Fuel needed by `parseElems` for a rendered element list. -/
def esize : List Json → Nat
  | [] => 0
  | x :: xs => 1 + jsize x + esize xs

/-- Fuel needed by `parseMembers` for a rendered member list. -/
def msize : List (List Char × Json) → Nat
  | [] => 0
  | kv :: ms => 1 + jsize kv.2 + msize ms

end

/-! ## The process executor (`src/executor.rs`)

Spawning through the shell is asynchronous I/O; it is modelled by a
deterministic `World` that fixes, for each command string, the behaviour of
the child process the shell would produce.  Every operation also returns the
list of commands it spawned, so claims about *not* spawning are statable.
Spawn failures (shell unavailable) are outside the model: `World` is total,
so every spawn succeeds — none of the claims under test concerns a failed
spawn. -/

/-- The behaviour of one child process: the lines its stdout and stderr
produce, and `status.code()` (`none` models termination by a signal, which
the executor maps to exit code 1 via `unwrap_or(1)`). -/
structure ChildSpec where
  stdoutLines : List (List Char)
  stderrLines : List (List Char)
  code : Option Int

/-- A deterministic world, mapping each shell command to its child process. -/
def World := List Char → ChildSpec

/-- Accumulate pipe lines exactly as the `next_line` loops do: each line is
pushed followed by one `'\n'`. -/
def joinLines (ls : List (List Char)) : List Char :=
  (ls.map (fun l => l ++ ['\n'])).flatten

/-- Translation of `ExecutionResult`. -/
structure ExecutionResult where
  exit_code : Int
  stdout : List Char
  stderr : List Char
  command : List Char

/-- Translation of `execute_command`: in dry-run mode, print only and
synthesize `exit code 0, empty stdout, empty stderr` without spawning;
otherwise spawn, drain both pipes, and wait.  The second component lists the
commands spawned.  The `attached` flag only echoes lines to the console and
cannot change the result. -/
def execute_command (w : World) (command : List Char) (dry_run : Bool)
    (_attached : Bool) : ExecutionResult × List (List Char) :=
  if dry_run then
    ({ exit_code := 0, stdout := [], stderr := [], command := command }, [])
  else
    let child := w command
    ({ exit_code := child.code.getD 1,
       stdout := joinLines child.stdoutLines,
       stderr := joinLines child.stderrLines,
       command := command }, [command])

/-- Translation of `ProcessHandle`: owns at most one live child, accumulates
drained output, and caches the exit code after the first successful wait. -/
structure ProcessHandle where
  command : List Char
  child : Option ChildSpec
  stdout : List Char
  stderr : List Char
  exit_code : Option Int

/-- Translation of `start_command`: spawn without waiting and wrap the child
in a fresh handle.  The second component lists the commands spawned. -/
def start_command (w : World) (command : List Char) (_attached : Bool) :
    ProcessHandle × List (List Char) :=
  ({ command := command, child := some (w command), stdout := [], stderr := [],
     exit_code := none }, [command])

/-- Translation of `ProcessHandle::wait_for_exit`: return the cached exit code
if present; otherwise take the child, drain both pipes, wait, and cache the
code.  With no cached code and no child it falls through to
`self.exit_code.unwrap_or(1)`. -/
def ProcessHandle.wait_for_exit (h : ProcessHandle) : Int × ProcessHandle :=
  match h.exit_code with
  | some code => (code, h)
  | none =>
    match h.child with
    | some child =>
      let code := child.code.getD 1
      (code, { h with
                child := none
                stdout := h.stdout ++ joinLines child.stdoutLines
                stderr := h.stderr ++ joinLines child.stderrLines
                exit_code := some code })
    | none => (1, h)

/-- Translation of `ProcessHandle::get_output`. -/
def ProcessHandle.get_output (h : ProcessHandle) :
    List Char × List Char × Option Int :=
  (h.stdout, h.stderr, h.exit_code)

/-- Translation of `ProcessHandle::has_exited`. -/
def ProcessHandle.has_exited (h : ProcessHandle) : Bool :=
  h.exit_code.isSome

/-- Translation of `execute_detached`: spawn with all standard streams nulled
and forget the child; only the spawn event is observable here. -/
def execute_detached (_w : World) (command : List Char) : List (List Char) :=
  [command]

/-! ## The agent controller (`src/lib.rs`)

The command builder (`command_builder.rs`) and the per-tool session-id
extractors (`tools/"*".rs`) are consumed as injected collaborators — the
specification treats them as external string-producing functions — bundled in
`Externals` and passed to `start`/`stop`.  No claim under test depends on the
strings they produce. -/

/-- Translation of `AgentOptions`. -/
structure AgentOptions where
  tool : List Char
  working_directory : List Char
  prompt : Option (List Char) := none
  system_prompt : Option (List Char) := none
  model : Option (List Char) := none
  isolation : List Char := []
  screen_name : Option (List Char) := none
  container_name : Option (List Char) := none
  json : Bool := false
  resume : Option (List Char) := none

/-- Translation of `AgentResult`. -/
structure AgentResult where
  exit_code : Int
  plain_output : List Char
  parsed_output : Option (List Json)
  session_id : Option (List Char)

/-- Translation of `AgentResult::default()`. -/
def AgentResult.default : AgentResult :=
  { exit_code := 0, plain_output := [], parsed_output := none, session_id := none }

/-- Translation of `AgentStartOptions`. -/
structure AgentStartOptions where
  dry_run : Bool := false
  detached : Bool := false
  attached : Bool := false

/-- Translation of `AgentStopOptions`. -/
structure AgentStopOptions where
  dry_run : Bool := false

/-- Translation of `tools::is_tool_supported`. -/
def is_tool_supported (tool : List Char) : Bool :=
  tool == "claude".toList || tool == "codex".toList || tool == "opencode".toList
    || tool == "agent".toList || tool == "gemini".toList

/-- The external collaborators the controller delegates to: the isolation-aware
command builder and the per-tool session-id extraction strategy (applied to
the tool name and the plain output). -/
structure Externals where
  build_agent_command : AgentOptions → Bool → List Char
  build_screen_stop_command : List Char → List Char
  build_docker_stop_command : List Char → List Char
  extract_session_id : List Char → List Char → Option (List Char)

/-- Translation of the `Agent` controller state. -/
structure Agent where
  options : AgentOptions
  process_handle : Option ProcessHandle
  output_stream : Option JsonOutputStream
  session_id : Option (List Char)

/-- Translation of `Agent::new`: validate the configuration, in source order,
spawning nothing (the construction is pure). -/
def Agent.new (options : AgentOptions) : Except (List Char) Agent :=
  if options.tool = [] then
    .error "tool is required".toList
  else if options.working_directory = [] then
    .error "working_directory is required".toList
  else if options.isolation = "screen".toList ∧ options.screen_name = none then
    .error "screen_name is required for screen isolation".toList
  else if options.isolation = "docker".toList ∧ options.container_name = none then
    .error "container_name is required for docker isolation".toList
  else
    .ok { options := options, process_handle := none, output_stream := none,
          session_id := none }

/-- Translation of `Agent::start`: create the output stream in JSON mode,
build the command, then dry-run (no spawn), detached spawn-and-forget, or
non-blocking spawn with the handle stored.  The last component lists the
commands spawned. -/
def Agent.start (ext : Externals) (w : World) (a : Agent)
    (so : AgentStartOptions) : Except (List Char) Unit × Agent × List (List Char) :=
  let a1 := if a.options.json then { a with output_stream := some JsonOutputStream.new }
            else a
  let command := ext.build_agent_command a1.options so.detached
  if so.dry_run then (.ok (), a1, [])
  else if so.detached then (.ok (), a1, execute_detached w command)
  else
    let r := start_command w command so.attached
    (.ok (), { a1 with process_handle := some r.1 }, r.2)

/-- Translation of `Agent::stop`.  For `screen`/`docker` isolation, run the
corresponding stop command synchronously (or dry-run it).  For no isolation,
require a stored handle (`as_mut`, so the handle is *borrowed*, not taken),
await its exit, combine the output, feed the output stream if present, and
extract the session id through the per-tool collaborator for the tools the
`match` in the source names (`gemini` is supported but has no arm).  Any
other isolation value is an error.  The last component lists the commands
spawned. -/
def Agent.stop (ext : Externals) (w : World) (a : Agent)
    (so : AgentStopOptions) : Except (List Char) AgentResult × Agent × List (List Char) :=
  if a.options.isolation = "screen".toList ∨ a.options.isolation = "docker".toList then
    let named : Except (List Char) (List Char) :=
      if a.options.isolation = "screen".toList then
        match a.options.screen_name with
        | none => .error "screen_name is required to stop screen session".toList
        | some name => .ok (ext.build_screen_stop_command name)
      else
        match a.options.container_name with
        | none => .error "container_name is required to stop docker container".toList
        | some name => .ok (ext.build_docker_stop_command name)
    match named with
    | .error e => (.error e, a, [])
    | .ok stop_command =>
      if so.dry_run then (.ok AgentResult.default, a, [])
      else
        let r := execute_command w stop_command false true
        (.ok { exit_code := r.1.exit_code, plain_output := r.1.stdout,
               parsed_output := none, session_id := none }, a, r.2)
  else if a.options.isolation = "none".toList ∨ a.options.isolation = [] then
    match a.process_handle with
    | none => (.error "Agent not started or already stopped".toList, a, [])
    | some h =>
      let waited := h.wait_for_exit
      let exit_code := waited.1
      let h' := waited.2
      let plain_output :=
        if h'.stderr = [] then h'.stdout else h'.stdout ++ '\n' :: h'.stderr
      let streamed : Option JsonOutputStream × Option (List Json) :=
        match a.output_stream with
        | some stream =>
          let s2 := ((stream.process h'.stdout).2.flush).2
          (some s2, if s2.get_messages.isEmpty then none else some s2.get_messages)
        | none => (none, none)
      let session_id :=
        if is_tool_supported a.options.tool then
          if a.options.tool == "claude".toList || a.options.tool == "codex".toList
              || a.options.tool == "opencode".toList || a.options.tool == "agent".toList then
            ext.extract_session_id a.options.tool plain_output
          else a.session_id
        else a.session_id
      let a' := { a with
                   process_handle := some h'
                   output_stream := streamed.1
                   session_id := session_id }
      (.ok { exit_code := exit_code, plain_output := plain_output,
             parsed_output := streamed.2, session_id := session_id }, a', [])
  else
    (.error ("Unsupported isolation mode: ".toList ++ a.options.isolation), a, [])

/-- Translation of `Agent::get_messages` (empty without a stream). -/
def Agent.get_messages (a : Agent) : List Json :=
  match a.output_stream with
  | some stream => stream.get_messages
  | none => []

/-! ## Concrete instances used by witnesses and counterexamples -/

/-- A sample set of external collaborators: constant command strings, no
session id ever extracted. -/
def sampleExternals : Externals :=
  { build_agent_command := fun _ _ => "cmd".toList
    build_screen_stop_command := fun _ => "stop-screen".toList
    build_docker_stop_command := fun _ => "stop-docker".toList
    extract_session_id := fun _ _ => none }

/-- A sample world: every command produces one line of stdout and exits 0. -/
def sampleWorld : World := fun _ =>
  { stdoutLines := [['h', 'i']], stderrLines := [], code := some 0 }

/-- A sample valid isolation-free configuration. -/
def sampleOptions : AgentOptions :=
  { tool := "claude".toList, working_directory := "/tmp".toList,
    isolation := "none".toList }

end AgentCommander

namespace AgentCommander

/-! ## Lemmas: newline splitting -/

theorem consFirst_nil (c : Char) (p : List Char) :
    consFirst c ([], p) = ([], c :: p) := rfl

theorem consFirst_cons (c : Char) (l : List Char) (ls : List (List Char))
    (p : List Char) : consFirst c (l :: ls, p) = ((c :: l) :: ls, p) := rfl

theorem splitNl_cons (c : Char) (r : List Char) :
    splitNl (c :: r) = if c = '\n' then ([] :: (splitNl r).1, (splitNl r).2)
                       else consFirst c (splitNl r) := rfl

/-- Splitting a concatenation: the completed lines of `a ++ b` are the
completed lines of `a` followed by those of `a`'s pending piece glued onto
`b`, whose pending piece is the final one. -/
theorem splitNl_append (a b : List Char) :
    splitNl (a ++ b)
      = ((splitNl a).1 ++ (splitNl ((splitNl a).2 ++ b)).1,
         (splitNl ((splitNl a).2 ++ b)).2) := by
  induction a with
  | nil => simp [splitNl]
  | cons c a ih =>
    by_cases hc : c = '\n'
    · subst hc
      simp [List.cons_append, splitNl_cons, ih]
    · rcases h1 : splitNl a with ⟨ls1, p1⟩
      cases ls1 with
      | nil =>
        simp only [List.cons_append, splitNl_cons, if_neg hc, ih, h1, consFirst_nil]
        rcases h2 : splitNl (p1 ++ b) with ⟨ls2, p2⟩
        cases ls2 <;> simp [consFirst]
      | cons l ls =>
        simp only [List.cons_append, splitNl_cons, if_neg hc, ih, h1, consFirst_cons]

end AgentCommander

namespace AgentCommander

/-! ## Lemmas: the output stream processor -/

theorem processLine_setBuffer (st : JsonOutputStream) (b l : List Char) :
    processLine { st with buffer := b } l
      = ((processLine st l).1, { (processLine st l).2 with buffer := b }) := by
  rcases st with ⟨buf, msgs, errs, n⟩
  unfold processLine
  cases parse_ndjson_line l <;> simp
  split <;> simp

theorem processLines_setBuffer (st : JsonOutputStream) (b : List Char)
    (ls : List (List Char)) :
    processLines { st with buffer := b } ls
      = ((processLines st ls).1, { (processLines st ls).2 with buffer := b }) := by
  induction ls generalizing st with
  | nil => simp [processLines]
  | cons l ls ih =>
    simp only [processLines, processLine_setBuffer, ih]

theorem processLines_append (st : JsonOutputStream) (ls1 ls2 : List (List Char)) :
    processLines st (ls1 ++ ls2)
      = ((processLines st ls1).1 ++ (processLines (processLines st ls1).2 ls2).1,
         (processLines (processLines st ls1).2 ls2).2) := by
  induction ls1 generalizing st with
  | nil => simp [processLines]
  | cons l ls ih =>
    simp [processLines, ih]

/-- Processing two chunks one after the other is processing their
concatenation: the returned message vectors concatenate and the states agree. -/
theorem process_append (st : JsonOutputStream) (c1 c2 : List Char) :
    st.process (c1 ++ c2)
      = ((st.process c1).1 ++ ((st.process c1).2.process c2).1,
         ((st.process c1).2.process c2).2) := by
  unfold JsonOutputStream.process
  rw [show st.buffer ++ (c1 ++ c2) = (st.buffer ++ c1) ++ c2 by simp,
      splitNl_append (st.buffer ++ c1) c2]
  rcases hA : splitNl (st.buffer ++ c1) with ⟨L1, p1⟩
  simp only [hA]
  simp only [processLines_setBuffer]
  rcases hB : splitNl (p1 ++ c2) with ⟨L2, p2⟩
  simp [hB, processLines_setBuffer, processLines_append]

end AgentCommander

namespace AgentCommander

theorem processAll_cons (c : List Char) (cs : List (List Char)) :
    ∀ st : JsonOutputStream, processAll st (c :: cs) = st.process (c ++ cs.flatten) := by
  induction cs generalizing c with
  | nil => intro st; simp [processAll]
  | cons c2 cs ih =>
    intro st
    have h1 : processAll st (c :: c2 :: cs)
        = ((st.process c).1 ++ (processAll (st.process c).2 (c2 :: cs)).1,
           (processAll (st.process c).2 (c2 :: cs)).2) := rfl
    rw [h1, ih c2,
        show ((c2 :: cs).flatten : List Char) = c2 ++ cs.flatten from rfl,
        process_append st c (c2 ++ cs.flatten)]

/-- C2: for every way of splitting an input into chunks, feeding the chunks
one by one to `process` and then calling `flush` yields the same concatenated
message sequence — and the same accumulated `get_messages` — as feeding the
whole concatenation as a single chunk followed by `flush`. -/
theorem c2_chunk_boundary_invariance (cs : List (List Char)) :
    (processAll JsonOutputStream.new cs).1
        ++ ((processAll JsonOutputStream.new cs).2.flush).1
      = (JsonOutputStream.new.process cs.flatten).1
        ++ ((JsonOutputStream.new.process cs.flatten).2.flush).1
    ∧ ((processAll JsonOutputStream.new cs).2.flush).2.get_messages
      = ((JsonOutputStream.new.process cs.flatten).2.flush).2.get_messages := by
  have h : processAll JsonOutputStream.new cs = JsonOutputStream.new.process cs.flatten := by
    cases cs with
    | nil => rfl
    | cons c cs => exact processAll_cons c cs _
  rw [h]
  exact ⟨rfl, rfl⟩

/-! ## Lemmas: accumulation -/

theorem processLine_messages (st : JsonOutputStream) (l : List Char) :
    (processLine st l).2.messages = st.messages ++ (processLine st l).1 := by
  rcases st with ⟨buf, msgs, errs, n⟩
  unfold processLine
  cases parse_ndjson_line l <;> simp
  split <;> simp

theorem processLine_errors (st : JsonOutputStream) (l : List Char) :
    ∃ es, (processLine st l).2.errors = st.errors ++ es := by
  rcases st with ⟨buf, msgs, errs, n⟩
  unfold processLine
  cases parse_ndjson_line l
  · simp only
    split
    · exact ⟨_, rfl⟩
    · exact ⟨[], by simp⟩
  · exact ⟨[], by simp⟩

theorem processLines_messages (st : JsonOutputStream) (ls : List (List Char)) :
    (processLines st ls).2.messages = st.messages ++ (processLines st ls).1 := by
  induction ls generalizing st with
  | nil => simp [processLines]
  | cons l ls ih =>
    simp [processLines, ih, processLine_messages]

theorem processLines_errors (st : JsonOutputStream) (ls : List (List Char)) :
    ∃ es, (processLines st ls).2.errors = st.errors ++ es := by
  induction ls generalizing st with
  | nil => exact ⟨[], by simp [processLines]⟩
  | cons l ls ih =>
    obtain ⟨es1, h1⟩ := processLine_errors st l
    obtain ⟨es2, h2⟩ := ih (processLine st l).2
    exact ⟨es1 ++ es2, by simp [processLines, h2, h1]⟩

theorem process_messages (st : JsonOutputStream) (c : List Char) :
    (st.process c).2.messages = st.messages ++ (st.process c).1 := by
  unfold JsonOutputStream.process
  rcases h : splitNl (st.buffer ++ c) with ⟨L, p⟩
  simpa using processLines_messages { st with buffer := p } L

theorem process_errors (st : JsonOutputStream) (c : List Char) :
    ∃ es, (st.process c).2.errors = st.errors ++ es := by
  unfold JsonOutputStream.process
  rcases h : splitNl (st.buffer ++ c) with ⟨L, p⟩
  simpa using processLines_errors { st with buffer := p } L

theorem flush_messages (st : JsonOutputStream) :
    (st.flush).2.messages = st.messages ++ (st.flush).1 := by
  unfold JsonOutputStream.flush
  split
  · simp
  · simpa using processLine_messages { st with buffer := [] } st.buffer

theorem flush_errors (st : JsonOutputStream) :
    ∃ es, (st.flush).2.errors = st.errors ++ es := by
  unfold JsonOutputStream.flush
  split
  · exact ⟨[], by simp⟩
  · simpa using processLine_errors { st with buffer := [] } st.buffer

theorem runOp_messages (st : JsonOutputStream) (op : StreamOp) :
    (runOp st op).2.messages = st.messages ++ (runOp st op).1 := by
  cases op with
  | processChunk c => exact process_messages st c
  | flushBuffer => exact flush_messages st

theorem runOp_errors (st : JsonOutputStream) (op : StreamOp) :
    ∃ es, (runOp st op).2.errors = st.errors ++ es := by
  cases op with
  | processChunk c => exact process_errors st c
  | flushBuffer => exact flush_errors st

theorem runOps_messages (ops : List StreamOp) :
    ∀ st : JsonOutputStream,
      (runOps st ops).2.messages = st.messages ++ (runOps st ops).1 := by
  induction ops with
  | nil => intro st; simp [runOps]
  | cons op ops ih =>
    intro st
    simp [runOps, ih, runOp_messages]

/-- C9: after any sequence of `process`/`flush` calls since construction (or
since a `reset`, which restores the fresh state), `get_messages` is exactly
the concatenation, in call order, of the message vectors those calls
returned; moreover every single call only appends to the `messages` and
`errors` sequences. -/
theorem c9_accumulated_messages :
    (∀ ops : List StreamOp,
       (runOps JsonOutputStream.new ops).2.get_messages
         = (runOps JsonOutputStream.new ops).1)
    ∧ (∀ (st : JsonOutputStream) (op : StreamOp),
         ∃ ms, (runOp st op).2.messages = st.messages ++ ms)
    ∧ (∀ (st : JsonOutputStream) (op : StreamOp),
         ∃ es, (runOp st op).2.errors = st.errors ++ es)
    ∧ (∀ st : JsonOutputStream, st.reset = JsonOutputStream.new) := by
  refine ⟨fun ops => ?_, fun st op => ⟨_, runOp_messages st op⟩,
          fun st op => runOp_errors st op, fun st => rfl⟩
  have h := runOps_messages ops JsonOutputStream.new
  simpa [JsonOutputStream.get_messages, JsonOutputStream.new] using h

/-! ## Lemmas: flush on whitespace -/

theorem dropWsLeft_eq_nil (s : List Char) (h : ∀ c ∈ s, isWsChar c = true) :
    dropWsLeft s = [] := by
  induction s with
  | nil => rfl
  | cons c r ih =>
    have hc := h c (by simp)
    simp [dropWsLeft, hc, ih (fun x hx => h x (by simp [hx]))]

/-- C7: `flush` on a pending buffer that is empty or contains only whitespace
returns no messages and leaves the state — in particular the error list and
the line counter — unchanged. -/
theorem c7_flush_whitespace_noop (st : JsonOutputStream)
    (h : ∀ c ∈ st.buffer, isWsChar c = true) :
    (st.flush).1 = [] ∧ (st.flush).2 = st := by
  have ht : trimChars st.buffer = [] := by
    unfold trimChars
    rw [dropWsLeft_eq_nil st.buffer h]
    rfl
  unfold JsonOutputStream.flush
  rw [if_pos ht]
  exact ⟨rfl, rfl⟩

/-- Witness for C7 at a concrete whitespace-only buffer with nonempty error
list and nonzero line counter. -/
theorem c7_flush_whitespace_noop_witness :
    ((⟨[' ', '\t'], [], [ParseError.mk ['x'] 1], 3⟩ : JsonOutputStream).flush).1 = []
    ∧ ((⟨[' ', '\t'], [], [ParseError.mk ['x'] 1], 3⟩ : JsonOutputStream).flush).2
      = ⟨[' ', '\t'], [], [ParseError.mk ['x'] 1], 3⟩ :=
  c7_flush_whitespace_noop ⟨[' ', '\t'], [], [ParseError.mk ['x'] 1], 3⟩ (by decide)

/-- C8: the completed line `123` — a bare JSON scalar, accepted by the
structural parser as the number 123 — produces neither a message nor a
`ParseError` (it is counted as a line), because the candidate test is the
syntactic brace/bracket prefix, not a full JSON-grammar check. -/
theorem c8_bare_scalar_line :
    (JsonOutputStream.new.process ['1', '2', '3', '\n']).1 = []
    ∧ (JsonOutputStream.new.process ['1', '2', '3', '\n']).2.messages = []
    ∧ (JsonOutputStream.new.process ['1', '2', '3', '\n']).2.errors = []
    ∧ (JsonOutputStream.new.process ['1', '2', '3', '\n']).2.line_count = 1
    ∧ fromStr ['1', '2', '3'] = some (.num 123) :=
  ⟨rfl, rfl, rfl, rfl, rfl⟩

/-- C3 counterexample: the completed line `[x` has a trimmed form starting
with `'['` and fails structural JSON parsing, yet processing it records no
`ParseError` — refuting the claim that all failing `'\x7b'`-or-`'['`-prefixed
candidates are recorded. -/
theorem c3_counterexample :
    parse_ndjson_line ['[', 'x'] = none
    ∧ (trimChars ['[', 'x']).head? = some '['
    ∧ (JsonOutputStream.new.process ['[', 'x', '\n']).2.errors = [] :=
  ⟨rfl, rfl, rfl⟩

/-- C3 (amended): a completed line that fails parsing is recorded as a
`ParseError` (at the incremented line number) exactly when its trimmed form
starts with `'\x7b'`; a failing line whose trimmed form starts with `'['` is
silently dropped, only the line counter advancing.  The codec itself returns
`none` in both cases, never an error. -/
theorem c3_brace_failures_recorded (st : JsonOutputStream) (line : List Char)
    (hp : parse_ndjson_line line = none) :
    ((trimChars line).head? = some '\x7b' →
      processLine st line
        = ([], { st with
                  line_count := st.line_count + 1
                  errors := st.errors ++ [ParseError.mk line (st.line_count + 1)] }))
    ∧ ((trimChars line).head? = some '[' →
      processLine st line = ([], { st with line_count := st.line_count + 1 })) := by
  constructor
  · intro hb
    simp [processLine, hp, hb]
  · intro hb
    simp [processLine, hp, hb]

/-- Witness for C3's amended statement at the concrete failing lines `\x7bx`
(recorded) and `[x` (dropped). -/
theorem c3_brace_failures_recorded_witness :
    (processLine JsonOutputStream.new ['\x7b', 'x']
      = ([], { JsonOutputStream.new with
                line_count := JsonOutputStream.new.line_count + 1
                errors := JsonOutputStream.new.errors
                  ++ [ParseError.mk ['\x7b', 'x'] (JsonOutputStream.new.line_count + 1)] }))
    ∧ (processLine JsonOutputStream.new ['[', 'x']
      = ([], { JsonOutputStream.new with
                line_count := JsonOutputStream.new.line_count + 1 })) :=
  ⟨(c3_brace_failures_recorded JsonOutputStream.new ['\x7b', 'x'] rfl).1 rfl,
   (c3_brace_failures_recorded JsonOutputStream.new ['[', 'x'] rfl).2 rfl⟩

end AgentCommander

namespace AgentCommander

/-! ## Lemmas: decimal digits and numbers -/

theorem digitChar_isDigit (n : Nat) : isDigitCh (digitChar n) = true := by
  unfold digitChar
  have h : n % 10 < 10 := Nat.mod_lt _ (by omega)
  generalize n % 10 = k at h ⊢
  interval_cases k <;> decide

theorem digitChar_val (n : Nat) : (digitChar n).toNat - 48 = n % 10 := by
  unfold digitChar
  have h : n % 10 < 10 := Nat.mod_lt _ (by omega)
  generalize n % 10 = k at h ⊢
  interval_cases k <;> decide

theorem natCharsAux_digits : ∀ fuel n c, c ∈ natCharsAux fuel n → isDigitCh c = true := by
  intro fuel
  induction fuel with
  | zero => intro n c hc; simp [natCharsAux] at hc
  | succ f ih =>
    intro n c hc
    by_cases hn : n = 0
    · simp [natCharsAux, hn] at hc
    · simp only [natCharsAux, if_neg hn, List.mem_append, List.mem_singleton] at hc
      rcases hc with hc | hc
      · exact ih _ _ hc
      · subst hc; exact digitChar_isDigit _

theorem natCharsAux_ne_nil (fuel n : Nat) (hn : n ≠ 0) (hf : n ≤ fuel) :
    natCharsAux fuel n ≠ [] := by
  cases fuel with
  | zero => omega
  | succ f => simp [natCharsAux, hn]

theorem digitsVal_append_singleton (ds : List Char) (c : Char) :
    digitsVal (ds ++ [c]) = 10 * digitsVal ds + (c.toNat - 48) := by
  unfold digitsVal
  rw [List.foldl_append]
  simp [Nat.mul_comm]

theorem digitsVal_natCharsAux : ∀ fuel n, n ≤ fuel →
    digitsVal (natCharsAux fuel n) = n := by
  intro fuel
  induction fuel with
  | zero => intro n h; interval_cases n; rfl
  | succ f ih =>
    intro n h
    by_cases hn : n = 0
    · subst hn; rfl
    · simp only [natCharsAux, if_neg hn]
      rw [digitsVal_append_singleton, ih (n / 10) (by omega), digitChar_val]
      omega

theorem natChars_digits (n : Nat) : ∀ c ∈ natChars n, isDigitCh c = true := by
  by_cases h : n = 0
  · subst h; intro c hc; simp [natChars] at hc; subst hc; decide
  · intro c hc
    rw [natChars, if_neg h] at hc
    exact natCharsAux_digits n n c hc

theorem natChars_ne_nil (n : Nat) : natChars n ≠ [] := by
  by_cases h : n = 0
  · simp [natChars, h]
  · rw [natChars, if_neg h]
    exact natCharsAux_ne_nil n n h le_rfl

theorem digitsVal_natChars (n : Nat) : digitsVal (natChars n) = n := by
  by_cases h : n = 0
  · subst h; rfl
  · rw [natChars, if_neg h]
    exact digitsVal_natCharsAux n n le_rfl

theorem takeDigits_delim (rest : List Char) (h : numDelimOk rest = true) :
    takeDigits rest = ([], rest) := by
  cases rest with
  | nil => rfl
  | cons c t =>
    simp only [numDelimOk, Bool.not_eq_true'] at h
    simp [takeDigits, h]

theorem takeDigits_digits_append : ∀ ds rest : List Char,
    (∀ c ∈ ds, isDigitCh c = true) → takeDigits rest = ([], rest) →
    takeDigits (ds ++ rest) = (ds, rest) := by
  intro ds
  induction ds with
  | nil =>
    intro rest _ hr
    simpa using hr
  | cons c t ih =>
    intro rest hall hr
    rw [List.cons_append]
    have step := ih rest (fun x hx => hall x (List.mem_cons_of_mem _ hx)) hr
    simp [takeDigits, hall c (List.mem_cons_self _ _), step]

theorem parseNumber_intChars (i : Int) (rest : List Char)
    (h : numDelimOk rest = true) :
    parseNumber (intChars i ++ rest) = some (i, rest) := by
  have htd : takeDigits (natChars i.natAbs ++ rest) = (natChars i.natAbs, rest) :=
    takeDigits_digits_append _ _ (natChars_digits _) (takeDigits_delim _ h)
  by_cases hi : i < 0
  · have harg : intChars i ++ rest = '-' :: (natChars i.natAbs ++ rest) := by
      simp [intChars, hi]
    rw [harg]
    unfold parseNumber
    simp only [List.head?_cons, List.tail_cons, if_pos rfl]
    simp only [htd]
    rw [if_neg (natChars_ne_nil _), digitsVal_natChars]
    have habs : (i.natAbs : Int) = -i := Int.ofNat_natAbs_of_nonpos (le_of_lt hi)
    rw [habs]
    simp
  · obtain ⟨c0, t0, h0⟩ : ∃ c0 t0, natChars i.natAbs = c0 :: t0 := by
      rcases hne : natChars i.natAbs with _ | ⟨c0, t0⟩
      · exact absurd hne (natChars_ne_nil _)
      · exact ⟨c0, t0, rfl⟩
    have hc0 : isDigitCh c0 = true := natChars_digits _ c0 (by rw [h0]; simp)
    have hm : c0 ≠ '-' := by
      intro e; subst e; exact absurd hc0 (by decide)
    have harg : intChars i ++ rest = c0 :: (t0 ++ rest) := by
      simp [intChars, hi, h0]
    rw [harg]
    unfold parseNumber
    rw [if_neg (by simp [hm])]
    rw [show c0 :: (t0 ++ rest) = (c0 :: t0) ++ rest from rfl, ← h0]
    simp only [htd]
    rw [if_neg (natChars_ne_nil _), digitsVal_natChars]
    rw [Int.natAbs_of_nonneg (not_lt.mp hi)]

end AgentCommander

namespace AgentCommander

/-! ## Lemmas: string escaping -/

theorem hexDigitVal_lowHexChar (k : Nat) (h : k < 16) :
    hexDigitVal (lowHexChar k) = some k := by
  interval_cases k <;> decide

theorem escChar_ne_nil (c : Char) : escChar c ≠ [] := by
  unfold escChar
  repeat' split
  all_goals simp

theorem length_le_flatMap_escChar (s : List Char) :
    s.length ≤ (s.flatMap escChar).length := by
  induction s with
  | nil => simp
  | cons c t ih =>
    have h1 : 0 < (escChar c).length := List.length_pos.mpr (escChar_ne_nil c)
    simp only [List.flatMap_cons, List.length_append, List.length_cons]
    omega

theorem parseStringBody_raw (fuel : Nat) (c : Char) (rest : List Char)
    (h1 : c ≠ '\"') (h2 : c ≠ '\\') (h3 : ¬ c.toNat < 32) :
    parseStringBody (fuel + 1) (c :: rest)
      = (parseStringBody fuel rest).map (fun q => (c :: q.1, q.2)) := by
  simp only [parseStringBody, if_neg h1, if_neg h2, if_neg h3]

theorem parseStringBody_escChar (c : Char) (fuel : Nat) (rest : List Char) :
    parseStringBody (fuel + 1) (escChar c ++ rest)
      = (parseStringBody fuel rest).map (fun q => (c :: q.1, q.2)) := by
  by_cases h1 : c = '\"'
  · subst h1; rfl
  by_cases h2 : c = '\\'
  · subst h2; rfl
  by_cases h3 : c = '\x08'
  · subst h3; rfl
  by_cases h4 : c = '\t'
  · subst h4; rfl
  by_cases h5 : c = '\n'
  · subst h5; rfl
  by_cases h6 : c = '\x0c'
  · subst h6; rfl
  by_cases h7 : c = '\r'
  · subst h7; rfl
  by_cases h8 : c.toNat < 32
  · have harg : escChar c ++ rest
        = '\\' :: 'u' :: '0' :: '0' :: lowHexChar (c.toNat / 16)
            :: lowHexChar (c.toNat % 16) :: rest := by
      simp [escChar, h1, h2, h3, h4, h5, h6, h7, h8]
    rw [harg]
    have hdiv : c.toNat / 16 < 16 := by omega
    have hmod : c.toNat % 16 < 16 := Nat.mod_lt _ (by omega)
    have hhex : hex4 '0' '0' (lowHexChar (c.toNat / 16)) (lowHexChar (c.toNat % 16))
        = some c.toNat := by
      unfold hex4
      rw [show hexDigitVal '0' = some 0 from by decide,
          hexDigitVal_lowHexChar _ hdiv, hexDigitVal_lowHexChar _ hmod]
      simp only [Option.bind_eq_bind, Option.some_bind, Option.pure_def,
                 Option.some.injEq]
      omega
    have hvs : isValidScalar c.toNat = true := by
      unfold isValidScalar
      simp only [Bool.or_eq_true, decide_eq_true_eq, Bool.and_eq_true]
      omega
    simp only [parseStringBody, hhex, hvs, if_pos, Char.ofNat_toNat]
    simp
  · have harg : escChar c ++ rest = c :: rest := by
      simp [escChar, h1, h2, h3, h4, h5, h6, h7, h8]
    rw [harg]
    exact parseStringBody_raw fuel c rest h1 h2 h8

theorem parseStringBody_flatMap (s : List Char) :
    ∀ fuel rest, s.length + 1 ≤ fuel →
      parseStringBody fuel (s.flatMap escChar ++ '\"' :: rest) = some (s, rest) := by
  induction s with
  | nil =>
    intro fuel rest h
    cases fuel with
    | zero => omega
    | succ f => rfl
  | cons c t ih =>
    intro fuel rest h
    cases fuel with
    | zero => omega
    | succ f =>
      rw [List.flatMap_cons, List.append_assoc, parseStringBody_escChar]
      rw [ih f rest (by simp at h ⊢; omega)]
      rfl

theorem parseJsonString_escBody (s rest : List Char) :
    parseJsonString (s.flatMap escChar ++ '\"' :: rest) = some (s, rest) := by
  unfold parseJsonString
  apply parseStringBody_flatMap
  have h := length_le_flatMap_escChar s
  simp only [List.length_append, List.length_cons]
  omega

end AgentCommander

namespace AgentCommander

/-! ## Lemmas: whitespace, gaps, and leading characters -/

theorem dropWsLeft_ws_append (w s : List Char) (h : ∀ c ∈ w, isWsChar c = true) :
    dropWsLeft (w ++ s) = dropWsLeft s := by
  induction w with
  | nil => rfl
  | cons c t ih =>
    have hc : isWsChar c = true := h c (by simp)
    simp [dropWsLeft, hc, ih (fun x hx => h x (by simp [hx]))]

theorem dropWsLeft_cons_of_not_ws (c : Char) (s : List Char)
    (h : isWsChar c = false) : dropWsLeft (c :: s) = c :: s := by
  simp [dropWsLeft, h]

theorem indentChars_ws (d : Nat) : ∀ c ∈ indentChars d, isWsChar c = true := by
  induction d with
  | zero => intro c hc; simp [indentChars] at hc
  | succ k ih =>
    intro c hc
    simp only [indentChars, List.mem_cons] at hc
    rcases hc with rfl | rfl | hc
    · decide
    · decide
    · exact ih c hc

theorem openGap_ws (p : Bool) (d : Nat) : ∀ c ∈ openGap p d, isWsChar c = true := by
  cases p with
  | false => intro c hc; simp [openGap] at hc
  | true =>
    intro c hc
    simp only [openGap, if_pos, List.mem_cons] at hc
    rcases hc with rfl | hc
    · decide
    · exact indentChars_ws _ c hc

theorem closeGap_ws (p : Bool) (d : Nat) : ∀ c ∈ closeGap p d, isWsChar c = true := by
  cases p with
  | false => intro c hc; simp [closeGap] at hc
  | true =>
    intro c hc
    simp only [closeGap, if_pos, List.mem_cons] at hc
    rcases hc with rfl | hc
    · decide
    · exact indentChars_ws _ c hc

theorem colonGap_ws (p : Bool) : ∀ c ∈ colonGap p, isWsChar c = true := by
  cases p with
  | false => intro c hc; simp [colonGap] at hc
  | true => intro c hc; simp only [colonGap, if_pos, List.mem_singleton] at hc
            subst hc; decide

theorem isDigitCh_props (c : Char) (h : isDigitCh c = true) :
    isWsChar c = false ∧ c ≠ ']' ∧ c ≠ '\x7d' ∧ c ≠ ',' ∧ c ≠ '-' ∧ c ≠ 'n'
      ∧ c ≠ 't' ∧ c ≠ 'f' ∧ c ≠ '\"' ∧ c ≠ '[' ∧ c ≠ '\x7b' ∧ c ≠ ':' := by
  have hws : isWsChar c = false := by
    by_contra hw
    rw [Bool.not_eq_false] at hw
    simp only [isWsChar, Bool.or_eq_true, beq_iff_eq] at hw
    rcases hw with ((rfl | rfl) | rfl) | rfl <;> exact absurd h (by decide)
  have hne : ∀ y : Char, isDigitCh y = false → c ≠ y := by
    intro y hy e
    subst e
    rw [h] at hy
    exact Bool.noConfusion hy
  exact ⟨hws, hne ']' (by decide), hne '\x7d' (by decide), hne ',' (by decide),
         hne '-' (by decide), hne 'n' (by decide), hne 't' (by decide),
         hne 'f' (by decide), hne '\"' (by decide), hne '[' (by decide),
         hne '\x7b' (by decide), hne ':' (by decide)⟩

theorem numDelimOk_cons (c : Char) (t : List Char) (h : isDigitCh c = false) :
    numDelimOk (c :: t) = true := by
  simp [numDelimOk, h]

theorem numDelimOk_closeGap (p : Bool) (d : Nat) (b : Char) (rest : List Char)
    (hb : isDigitCh b = false) :
    numDelimOk (closeGap p d ++ b :: rest) = true := by
  cases p with
  | false => exact numDelimOk_cons b rest hb
  | true =>
    simp only [closeGap, if_pos, List.cons_append]
    exact numDelimOk_cons _ _ (by decide)

theorem dropWsLeft_closeGap (p : Bool) (d : Nat) (b : Char) (rest : List Char)
    (hb : isWsChar b = false) :
    dropWsLeft (closeGap p d ++ b :: rest) = b :: rest := by
  rw [dropWsLeft_ws_append _ _ (closeGap_ws p d), dropWsLeft_cons_of_not_ws _ _ hb]

theorem headOkCons (c : Char) (t : List Char) (h1 : isWsChar c = false)
    (h2 : c ≠ ']') (h3 : c ≠ '\x7d') :
    ∃ c' t', (c :: t : List Char) = c' :: t' ∧ isWsChar c' = false
      ∧ c' ≠ ']' ∧ c' ≠ '\x7d' :=
  ⟨c, t, rfl, h1, h2, h3⟩

theorem renderJson_head (p : Bool) (d : Nat) (v : Json) :
    ∃ c t, renderJson p d v = c :: t ∧ isWsChar c = false ∧ c ≠ ']' ∧ c ≠ '\x7d' := by
  cases v with
  | num i =>
    by_cases hi : i < 0
    · rw [show renderJson p d (.num i) = '-' :: natChars i.natAbs from by
        simp [renderJson, intChars, hi]]
      exact headOkCons _ _ (by decide) (by decide) (by decide)
    · obtain ⟨c0, t0, h0⟩ : ∃ c0 t0, natChars i.natAbs = c0 :: t0 := by
        rcases hne : natChars i.natAbs with _ | ⟨c0, t0⟩
        · exact absurd hne (natChars_ne_nil _)
        · exact ⟨c0, t0, rfl⟩
      have hc0 : isDigitCh c0 = true := natChars_digits _ c0 (by rw [h0]; simp)
      obtain ⟨hws, hbr, hbc, _⟩ := isDigitCh_props c0 hc0
      rw [show renderJson p d (.num i) = c0 :: t0 from by
        simp [renderJson, intChars, hi, h0]]
      exact headOkCons _ _ hws hbr hbc
  | bool b => cases b <;> exact headOkCons _ _ (by decide) (by decide) (by decide)
  | null => exact headOkCons _ _ (by decide) (by decide) (by decide)
  | str s => exact headOkCons _ _ (by decide) (by decide) (by decide)
  | arr es => cases es <;> exact headOkCons _ _ (by decide) (by decide) (by decide)
  | obj ms => cases ms <;> exact headOkCons _ _ (by decide) (by decide) (by decide)

/-! ## Lemmas: size bounds -/

theorem jsize_pos (v : Json) : 1 ≤ jsize v := by
  cases v <;> simp [jsize]

mutual

theorem jsize_le_render : ∀ (v : Json) (p : Bool) (d : Nat),
    jsize v ≤ (renderJson p d v).length
  | .null, p, d => by simp [jsize, renderJson]
  | .bool b, p, d => by cases b <;> simp [jsize, renderJson]
  | .num i, p, d => by
    have h := List.length_pos.mpr (natChars_ne_nil i.natAbs)
    by_cases hi : i < 0
    · simp [jsize, renderJson, intChars, hi]
    · simp [jsize, renderJson, intChars, hi]
      omega
  | .str s, p, d => by simp [jsize, renderJson, escString]
  | .arr [], p, d => by simp [jsize, esize, renderJson]
  | .arr (x :: xs), p, d => by
    have h1 := jsize_le_render x p (d + 1)
    have h2 := esize_le_renderMore xs p d
    simp only [jsize, esize, renderJson, List.length_cons, List.length_append]
    omega
  | .obj [], p, d => by simp [jsize, msize, renderJson]
  | .obj ((k, v) :: ms), p, d => by
    have h1 := jsize_le_render v p (d + 1)
    have h2 := msize_le_renderMore ms p d
    simp only [jsize, msize, renderJson, renderMember, List.length_cons,
               List.length_append]
    omega

theorem esize_le_renderMore : ∀ (xs : List Json) (p : Bool) (d : Nat),
    esize xs ≤ (renderMoreElems p d xs).length
  | [], p, d => by simp [esize, renderMoreElems]
  | x :: xs, p, d => by
    have h1 := jsize_le_render x p (d + 1)
    have h2 := esize_le_renderMore xs p d
    simp only [esize, renderMoreElems, List.length_cons, List.length_append]
    omega

theorem msize_le_renderMore : ∀ (ms : List (List Char × Json)) (p : Bool) (d : Nat),
    msize ms ≤ (renderMoreMembers p d ms).length
  | [], p, d => by simp [msize, renderMoreMembers]
  | (k, v) :: ms, p, d => by
    have h1 := jsize_le_render v p (d + 1)
    have h2 := msize_le_renderMore ms p d
    simp only [msize, renderMoreMembers, renderMember, List.length_cons,
               List.length_append]
    omega

end

/-! ## Lemmas: parser inversion for numbers -/

theorem parseJsonValue_intChars (fuel : Nat) (i : Int) (rest : List Char)
    (hr : numDelimOk rest = true) :
    parseJsonValue (fuel + 1) (intChars i ++ rest) = some (.num i, rest) := by
  have hnum := parseNumber_intChars i rest hr
  by_cases hi : i < 0
  · have harg : intChars i ++ rest = '-' :: (natChars i.natAbs ++ rest) := by
      simp [intChars, hi]
    rw [harg]
    simp only [parseJsonValue]
    rw [if_neg (by decide), if_neg (by decide), if_neg (by decide),
        if_neg (by decide), if_neg (by decide), if_neg (by decide),
        if_pos (by decide)]
    rw [show ('-' :: (natChars i.natAbs ++ rest) : List Char)
          = intChars i ++ rest from harg.symm, hnum]
    rfl
  · obtain ⟨c0, t0, h0⟩ : ∃ c0 t0, natChars i.natAbs = c0 :: t0 := by
      rcases hne : natChars i.natAbs with _ | ⟨c0, t0⟩
      · exact absurd hne (natChars_ne_nil _)
      · exact ⟨c0, t0, rfl⟩
    have hc0 : isDigitCh c0 = true := natChars_digits _ c0 (by rw [h0]; simp)
    obtain ⟨_, _, _, _, _, hn, ht, hf, hq, hbk, hbc, _⟩ := isDigitCh_props c0 hc0
    have harg : intChars i ++ rest = c0 :: (t0 ++ rest) := by
      simp [intChars, hi, h0]
    rw [harg]
    simp only [parseJsonValue, if_neg hn, if_neg ht, if_neg hf, if_neg hq,
               if_neg hbk, if_neg hbc, hc0, Bool.or_true, if_pos]
    rw [show (c0 :: (t0 ++ rest) : List Char) = intChars i ++ rest from harg.symm,
        hnum]
    rfl

end AgentCommander

namespace AgentCommander

/-! ## The parser inverts the renderer (both modes) -/

mutual

theorem parse_render : ∀ (fuel : Nat) (v : Json) (p : Bool) (d : Nat)
      (rest : List Char), jsize v ≤ fuel → numDelimOk rest = true →
    parseJsonValue fuel (renderJson p d v ++ rest) = some (v, rest)
  | 0, v, _, _, _, hf, _ => absurd (le_trans (jsize_pos v) hf) (by omega)
  | fuel + 1, .null, p, d, rest, _, _ => rfl
  | fuel + 1, .bool true, p, d, rest, _, _ => rfl
  | fuel + 1, .bool false, p, d, rest, _, _ => rfl
  | fuel + 1, .num i, p, d, rest, _, hr => parseJsonValue_intChars fuel i rest hr
  | fuel + 1, .str s, p, d, rest, _, _ => by
    have harg : renderJson p d (.str s) ++ rest
        = '\"' :: (s.flatMap escChar ++ ('\"' :: rest)) := by
      simp [renderJson, escString]
    rw [harg]
    simp only [parseJsonValue]
    rw [if_neg (by decide), if_neg (by decide), if_neg (by decide)]
    simp only [if_true]
    rw [parseJsonString_escBody]
    rfl
  | fuel + 1, .arr [], p, d, rest, _, _ => rfl
  | fuel + 1, .arr (x :: xs), p, d, rest, hf, hr => by
    obtain ⟨c0, t0, h0, hws0, hbr0, _⟩ := renderJson_head p (d + 1) x
    have harg : renderJson p d (.arr (x :: xs)) ++ rest
        = '[' :: (openGap p d ++ (renderJson p (d + 1) x
            ++ (renderMoreElems p d xs ++ (closeGap p d ++ ']' :: rest)))) := by
      simp [renderJson]
    rw [harg]
    simp only [parseJsonValue]
    rw [if_neg (by decide), if_neg (by decide), if_neg (by decide),
        if_neg (by decide)]
    simp only [if_true]
    have hdrop : dropWsLeft (openGap p d ++ (renderJson p (d + 1) x
        ++ (renderMoreElems p d xs ++ (closeGap p d ++ ']' :: rest))))
        = renderJson p (d + 1) x
            ++ (renderMoreElems p d xs ++ (closeGap p d ++ ']' :: rest)) := by
      rw [dropWsLeft_ws_append _ _ (openGap_ws p d), h0, List.cons_append,
          dropWsLeft_cons_of_not_ws _ _ hws0, ← List.cons_append, ← h0]
    have hhead : (renderJson p (d + 1) x
        ++ (renderMoreElems p d xs ++ (closeGap p d ++ ']' :: rest))).head?
        = some c0 := by
      rw [h0]; rfl
    have hx : esize (x :: xs) ≤ fuel := by
      simp only [jsize] at hf; omega
    simp only [hdrop, hhead]
    rw [if_neg (by simp [hbr0])]
    rw [parse_renderElems fuel x xs p d rest hx]
    rfl
  | fuel + 1, .obj [], p, d, rest, _, _ => rfl
  | fuel + 1, .obj ((k, v) :: ms), p, d, rest, hf, hr => by
    have harg : renderJson p d (.obj ((k, v) :: ms)) ++ rest
        = '\x7b' :: (openGap p d ++ (renderMember p d (k, v)
            ++ (renderMoreMembers p d ms ++ (closeGap p d ++ '\x7d' :: rest)))) := by
      simp [renderJson]
    rw [harg]
    simp only [parseJsonValue]
    rw [if_neg (by decide), if_neg (by decide), if_neg (by decide),
        if_neg (by decide), if_neg (by decide)]
    simp only [if_true]
    have hdrop : dropWsLeft (openGap p d ++ (renderMember p d (k, v)
        ++ (renderMoreMembers p d ms ++ (closeGap p d ++ '\x7d' :: rest))))
        = renderMember p d (k, v)
            ++ (renderMoreMembers p d ms ++ (closeGap p d ++ '\x7d' :: rest)) := by
      rw [dropWsLeft_ws_append _ _ (openGap_ws p d)]
      rw [show renderMember p d (k, v) = '\"' :: (k.flatMap escChar ++ ['\"']
            ++ (':' :: (colonGap p ++ renderJson p (d + 1) v))) from by
        simp [renderMember, escString]]
      rw [List.cons_append, dropWsLeft_cons_of_not_ws _ _ (by decide)]
    have hhead : (renderMember p d (k, v)
        ++ (renderMoreMembers p d ms ++ (closeGap p d ++ '\x7d' :: rest))).head?
        = some '\"' := by
      rw [show renderMember p d (k, v) = '\"' :: (k.flatMap escChar ++ ['\"']
            ++ (':' :: (colonGap p ++ renderJson p (d + 1) v))) from by
        simp [renderMember, escString]]
      rfl
    have hm : msize ((k, v) :: ms) ≤ fuel := by
      simp only [jsize] at hf; omega
    simp only [hdrop, hhead]
    rw [if_neg (by decide)]
    rw [parse_renderMembers fuel k v ms p d rest hm]
    rfl

theorem parse_renderElems : ∀ (fuel : Nat) (x : Json) (xs : List Json) (p : Bool)
      (d : Nat) (rest : List Char), esize (x :: xs) ≤ fuel →
    parseElems fuel
        (renderJson p (d + 1) x
          ++ (renderMoreElems p d xs ++ (closeGap p d ++ ']' :: rest)))
      = some (x :: xs, rest)
  | 0, x, xs, _, _, _, hf => by simp [esize] at hf
  | fuel + 1, x, xs, p, d, rest, hf => by
    have hx : jsize x ≤ fuel := by
      simp only [esize] at hf; omega
    have hnd : numDelimOk (renderMoreElems p d xs
        ++ (closeGap p d ++ ']' :: rest)) = true := by
      cases xs with
      | nil =>
        simpa [renderMoreElems] using numDelimOk_closeGap p d ']' rest (by decide)
      | cons y ys =>
        simp only [renderMoreElems, List.cons_append]
        exact numDelimOk_cons _ _ (by decide)
    simp only [parseElems]
    rw [parse_render fuel x p (d + 1) _ hx hnd]
    cases xs with
    | nil =>
      simp only [renderMoreElems, List.nil_append,
                 dropWsLeft_closeGap p d ']' rest (by decide)]
      simp
    | cons y ys =>
      have hNorm : renderMoreElems p d (y :: ys) ++ (closeGap p d ++ ']' :: rest)
          = ',' :: (openGap p d ++ (renderJson p (d + 1) y
              ++ (renderMoreElems p d ys ++ (closeGap p d ++ ']' :: rest)))) := by
        simp [renderMoreElems]
      have hdw : ∀ t : List Char, dropWsLeft (',' :: t) = ',' :: t :=
        fun t => dropWsLeft_cons_of_not_ws _ _ (by decide)
      obtain ⟨c0, t0, h0, hws0, _, _⟩ := renderJson_head p (d + 1) y
      have hdrop : dropWsLeft (openGap p d ++ (renderJson p (d + 1) y
          ++ (renderMoreElems p d ys ++ (closeGap p d ++ ']' :: rest))))
          = renderJson p (d + 1) y
              ++ (renderMoreElems p d ys ++ (closeGap p d ++ ']' :: rest)) := by
        rw [dropWsLeft_ws_append _ _ (openGap_ws p d), h0, List.cons_append,
            dropWsLeft_cons_of_not_ws _ _ hws0, ← List.cons_append, ← h0]
      have hys : esize (y :: ys) ≤ fuel := by
        simp only [esize] at hf ⊢; omega
      simp only [hNorm, hdw, List.head?_cons, List.tail_cons, hdrop]
      simp [parse_renderElems fuel y ys p d rest hys]

theorem parse_renderMembers : ∀ (fuel : Nat) (k : List Char) (v : Json)
      (ms : List (List Char × Json)) (p : Bool) (d : Nat) (rest : List Char),
      msize ((k, v) :: ms) ≤ fuel →
    parseMembers fuel
        (renderMember p d (k, v)
          ++ (renderMoreMembers p d ms ++ (closeGap p d ++ '\x7d' :: rest)))
      = some ((k, v) :: ms, rest)
  | 0, k, v, ms, _, _, _, hf => by simp [msize] at hf
  | fuel + 1, k, v, ms, p, d, rest, hf => by
    have hv : jsize v ≤ fuel := by
      simp only [msize] at hf; omega
    have harg : renderMember p d (k, v)
        ++ (renderMoreMembers p d ms ++ (closeGap p d ++ '\x7d' :: rest))
        = '\"' :: (k.flatMap escChar ++ ('\"' :: (':' :: (colonGap p
            ++ (renderJson p (d + 1) v
              ++ (renderMoreMembers p d ms ++ (closeGap p d ++ '\x7d' :: rest))))))) := by
      simp [renderMember, escString]
    rw [harg]
    simp only [parseMembers, List.head?_cons, List.tail_cons, if_true]
    rw [parseJsonString_escBody]
    have hdwc : ∀ t : List Char, dropWsLeft (':' :: t) = ':' :: t :=
      fun t => dropWsLeft_cons_of_not_ws _ _ (by decide)
    simp only [hdwc, List.head?_cons, List.tail_cons]
    obtain ⟨c0, t0, h0, hws0, _, _⟩ := renderJson_head p (d + 1) v
    have hdrop : dropWsLeft (colonGap p ++ (renderJson p (d + 1) v
        ++ (renderMoreMembers p d ms ++ (closeGap p d ++ '\x7d' :: rest))))
        = renderJson p (d + 1) v
            ++ (renderMoreMembers p d ms ++ (closeGap p d ++ '\x7d' :: rest)) := by
      rw [dropWsLeft_ws_append _ _ (colonGap_ws p), h0, List.cons_append,
          dropWsLeft_cons_of_not_ws _ _ hws0, ← List.cons_append, ← h0]
    have hnd : numDelimOk (renderMoreMembers p d ms
        ++ (closeGap p d ++ '\x7d' :: rest)) = true := by
      cases ms with
      | nil =>
        simpa [renderMoreMembers] using numDelimOk_closeGap p d '\x7d' rest (by decide)
      | cons m ms' =>
        simp only [renderMoreMembers, List.cons_append]
        exact numDelimOk_cons _ _ (by decide)
    simp only [hdrop, parse_render fuel v p (d + 1) _ hv hnd, if_true]
    cases ms with
    | nil =>
      simp only [renderMoreMembers, List.nil_append,
                 dropWsLeft_closeGap p d '\x7d' rest (by decide)]
      simp
    | cons m ms' =>
      rcases m with ⟨k2, v2⟩
      have hNorm : renderMoreMembers p d ((k2, v2) :: ms')
          ++ (closeGap p d ++ '\x7d' :: rest)
          = ',' :: (openGap p d ++ (renderMember p d (k2, v2)
              ++ (renderMoreMembers p d ms' ++ (closeGap p d ++ '\x7d' :: rest)))) := by
        simp [renderMoreMembers]
      have hdw2 : ∀ t : List Char, dropWsLeft (',' :: t) = ',' :: t :=
        fun t => dropWsLeft_cons_of_not_ws _ _ (by decide)
      have hdrop2 : dropWsLeft (openGap p d ++ (renderMember p d (k2, v2)
          ++ (renderMoreMembers p d ms' ++ (closeGap p d ++ '\x7d' :: rest))))
          = renderMember p d (k2, v2)
              ++ (renderMoreMembers p d ms' ++ (closeGap p d ++ '\x7d' :: rest)) := by
        rw [dropWsLeft_ws_append _ _ (openGap_ws p d)]
        rw [show renderMember p d (k2, v2) = '\"' :: (k2.flatMap escChar ++ ['\"']
              ++ (':' :: (colonGap p ++ renderJson p (d + 1) v2))) from by
          simp [renderMember, escString]]
        rw [List.cons_append, dropWsLeft_cons_of_not_ws _ _ (by decide)]
      have hms : msize ((k2, v2) :: ms') ≤ fuel := by
        simp only [msize] at hf ⊢; omega
      simp only [hNorm, hdw2, List.head?_cons, List.tail_cons, hdrop2]
      simp [parse_renderMembers fuel k2 v2 ms' p d rest hms]

end

end AgentCommander

namespace AgentCommander

theorem fromStr_render (p : Bool) (v : Json) :
    fromStr (renderJson p 0 v) = some v := by
  unfold fromStr
  obtain ⟨c0, t0, h0, hws0, _, _⟩ := renderJson_head p 0 v
  have hdw : dropWsLeft (renderJson p 0 v) = renderJson p 0 v := by
    rw [h0, dropWsLeft_cons_of_not_ws _ _ hws0, ← h0]
  rw [hdw]
  have hfuel : jsize v ≤ (renderJson p 0 v).length + 1 := by
    have := jsize_le_render v p 0; omega
  have h := parse_render ((renderJson p 0 v).length + 1) v p 0 [] hfuel rfl
  rw [List.append_nil] at h
  rw [h]
  rfl

/-! ## Lemmas: trimming rendered output -/

theorem trimChars_eq_self (s : List Char) (c0 cl : Char) (t m : List Char)
    (h0 : s = c0 :: t) (hws0 : isWsChar c0 = false)
    (hl : s = m ++ [cl]) (hwsl : isWsChar cl = false) :
    trimChars s = s := by
  unfold trimChars
  have h1 : dropWsLeft s = s := by
    rw [h0, dropWsLeft_cons_of_not_ws _ _ hws0, ← h0]
  rw [h1, hl]
  rw [show (m ++ [cl]).reverse = cl :: m.reverse from by simp]
  rw [dropWsLeft_cons_of_not_ws _ _ hwsl]
  simp

theorem trimChars_append_newline (s : List Char) (c0 cl : Char) (t m : List Char)
    (h0 : s = c0 :: t) (hws0 : isWsChar c0 = false)
    (hl : s = m ++ [cl]) (hwsl : isWsChar cl = false) :
    trimChars (s ++ ['\n']) = s := by
  unfold trimChars
  have h1 : dropWsLeft (s ++ ['\n']) = s ++ ['\n'] := by
    rw [h0, List.cons_append, dropWsLeft_cons_of_not_ws _ _ hws0, ← List.cons_append, ← h0]
  rw [h1]
  rw [show (s ++ ['\n']).reverse = '\n' :: s.reverse from by simp]
  rw [show dropWsLeft ('\n' :: s.reverse) = dropWsLeft s.reverse from rfl]
  rw [hl]
  rw [show (m ++ [cl]).reverse = cl :: m.reverse from by simp]
  rw [dropWsLeft_cons_of_not_ws _ _ hwsl]
  simp

theorem renderJson_container_last (p : Bool) (d : Nat) (v : Json)
    (hv : v.isContainer = true) :
    ∃ m cl, renderJson p d v = m ++ [cl] ∧ isWsChar cl = false ∧ cl ≠ '\r' := by
  cases v with
  | null => simp [Json.isContainer] at hv
  | bool b => simp [Json.isContainer] at hv
  | num i => simp [Json.isContainer] at hv
  | str s => simp [Json.isContainer] at hv
  | arr es =>
    cases es with
    | nil => exact ⟨['['], ']', rfl, by decide, by decide⟩
    | cons x xs =>
      refine ⟨'[' :: (openGap p d ++ renderJson p (d + 1) x
        ++ renderMoreElems p d xs ++ closeGap p d), ']', ?_, by decide, by decide⟩
      simp [renderJson]
  | obj ms =>
    cases ms with
    | nil => exact ⟨['\x7b'], '\x7d', rfl, by decide, by decide⟩
    | cons m ms =>
      refine ⟨'\x7b' :: (openGap p d ++ renderMember p d m
        ++ renderMoreMembers p d ms ++ closeGap p d), '\x7d', ?_, by decide, by decide⟩
      simp [renderJson]

theorem renderJson_container_head (p : Bool) (d : Nat) (v : Json)
    (hv : v.isContainer = true) :
    (renderJson p d v).head? = some '\x7b' ∨ (renderJson p d v).head? = some '[' := by
  cases v with
  | null => simp [Json.isContainer] at hv
  | bool b => simp [Json.isContainer] at hv
  | num i => simp [Json.isContainer] at hv
  | str s => simp [Json.isContainer] at hv
  | arr es => right; cases es <;> rfl
  | obj ms => left; cases ms <;> rfl

theorem isNull_false_of_container (v : Json) (hv : v.isContainer = true) :
    v.isNull = false := by
  cases v <;> simp_all [Json.isContainer, Json.isNull]

/-- Parsing one rendered line (no trailing newline) recovers the value, for
objects and arrays. -/
theorem parse_ndjson_line_render (p : Bool) (v : Json) (hv : v.isContainer = true) :
    parse_ndjson_line (renderJson p 0 v) = some v := by
  obtain ⟨c0, t0, h0, hws0, _, _⟩ := renderJson_head p 0 v
  obtain ⟨m, cl, hl, hwsl, _⟩ := renderJson_container_last p 0 v hv
  have htrim : trimChars (renderJson p 0 v) = renderJson p 0 v :=
    trimChars_eq_self _ _ _ _ _ h0 hws0 hl hwsl
  unfold parse_ndjson_line
  rw [htrim]
  rw [if_neg (by rw [h0]; simp)]
  rw [if_neg (by push_neg; exact renderJson_container_head p 0 v hv)]
  exact fromStr_render p v

/-- Parsing one rendered line with its trailing newline recovers the value,
for objects and arrays. -/
theorem parse_ndjson_line_render_nl (p : Bool) (v : Json) (hv : v.isContainer = true) :
    parse_ndjson_line (renderJson p 0 v ++ ['\n']) = some v := by
  obtain ⟨c0, t0, h0, hws0, _, _⟩ := renderJson_head p 0 v
  obtain ⟨m, cl, hl, hwsl, _⟩ := renderJson_container_last p 0 v hv
  have htrim : trimChars (renderJson p 0 v ++ ['\n']) = renderJson p 0 v :=
    trimChars_append_newline _ _ _ _ _ h0 hws0 hl hwsl
  unfold parse_ndjson_line
  rw [htrim]
  rw [if_neg (by rw [h0]; simp)]
  rw [if_neg (by push_neg; exact renderJson_container_head p 0 v hv)]
  exact fromStr_render p v

/-- C6: serializing any object or array value with `stringify_ndjson_line` —
in either compact or pretty mode — and parsing the result back with
`parse_ndjson_line` returns the original value. -/
theorem c6_line_round_trip (v : Json) (hv : v.isContainer = true) (compact : Bool) :
    parse_ndjson_line (stringify_ndjson_line v compact) = some v := by
  have hnn : v.isNull = false := isNull_false_of_container v hv
  unfold stringify_ndjson_line
  rw [hnn]
  cases compact with
  | true =>
    simp only [if_pos, Bool.false_eq_true, if_false, jsonToString]
    exact parse_ndjson_line_render_nl false v hv
  | false =>
    simp only [Bool.false_eq_true, if_false, jsonToStringPretty]
    exact parse_ndjson_line_render_nl true v hv

/-- Witness for C6 at the concrete object `\x7b"a":1\x7d`, in both modes. -/
theorem c6_line_round_trip_witness :
    parse_ndjson_line (stringify_ndjson_line (.obj [(['a'], .num 1)]) true)
      = some (.obj [(['a'], .num 1)])
    ∧ parse_ndjson_line (stringify_ndjson_line (.obj [(['a'], .num 1)]) false)
      = some (.obj [(['a'], .num 1)]) :=
  ⟨c6_line_round_trip (.obj [(['a'], .num 1)]) rfl true,
   c6_line_round_trip (.obj [(['a'], .num 1)]) rfl false⟩

end AgentCommander

namespace AgentCommander

/-! ## Lemmas: compact output is single-line -/

theorem lowHexChar_ne_nl (k : Nat) (h : k < 16) : lowHexChar k ≠ '\n' := by
  interval_cases k <;> decide

theorem escChar_no_nl (c : Char) : '\n' ∉ escChar c := by
  by_cases h1 : c = '\"'
  · simp [escChar, h1]
  by_cases h2 : c = '\\'
  · simp [escChar, h1, h2]
  by_cases h3 : c = '\x08'
  · simp [escChar, h1, h2, h3]
  by_cases h4 : c = '\t'
  · simp [escChar, h1, h2, h3, h4]
  by_cases h5 : c = '\n'
  · simp [escChar, h1, h2, h3, h4, h5]
  by_cases h6 : c = '\x0c'
  · simp [escChar, h1, h2, h3, h4, h5, h6]
  by_cases h7 : c = '\r'
  · simp [escChar, h1, h2, h3, h4, h5, h6, h7]
  by_cases h8 : c.toNat < 32
  · have hdiv : c.toNat / 16 < 16 := by omega
    have hmod : c.toNat % 16 < 16 := Nat.mod_lt _ (by omega)
    rw [show escChar c
        = ['\\', 'u', '0', '0', lowHexChar (c.toNat / 16), lowHexChar (c.toNat % 16)]
      from by simp [escChar, h1, h2, h3, h4, h5, h6, h7, h8]]
    intro hmem
    simp only [List.mem_cons, List.not_mem_nil, or_false] at hmem
    rcases hmem with e | e | e | e | e | e
    · exact absurd e (by decide)
    · exact absurd e (by decide)
    · exact absurd e (by decide)
    · exact absurd e (by decide)
    · exact lowHexChar_ne_nl _ hdiv e.symm
    · exact lowHexChar_ne_nl _ hmod e.symm
  · rw [show escChar c = [c] from by simp [escChar, h1, h2, h3, h4, h5, h6, h7, h8]]
    intro hmem
    simp only [List.mem_singleton] at hmem
    exact h5 hmem.symm

theorem escString_no_nl (ks : List Char) : '\n' ∉ escString ks := by
  intro hmem
  simp only [escString, List.mem_cons, List.mem_append, List.mem_flatMap,
             List.mem_singleton] at hmem
  rcases hmem with e | ⟨⟨c, _, hc⟩ | e⟩
  · exact absurd e (by decide)
  · exact escChar_no_nl c hc
  · exact absurd e (by decide)

theorem intChars_no_nl (i : Int) : '\n' ∉ intChars i := by
  intro hmem
  unfold intChars at hmem
  by_cases hi : i < 0
  · rw [if_pos hi] at hmem
    rcases List.mem_cons.mp hmem with e | e
    · exact absurd e (by decide)
    · exact absurd (natChars_digits _ _ e) (by decide)
  · rw [if_neg hi] at hmem
    exact absurd (natChars_digits _ _ hmem) (by decide)

mutual

theorem renderJson_compact_no_nl : ∀ (v : Json) (d : Nat),
    '\n' ∉ renderJson false d v
  | .null, d => by simp [renderJson]
  | .bool b, d => by cases b <;> simp [renderJson]
  | .num i, d => intChars_no_nl i
  | .str s, d => escString_no_nl s
  | .arr [], d => by simp [renderJson]
  | .arr (x :: xs), d => by
    have h1 := renderJson_compact_no_nl x (d + 1)
    have h2 := renderMoreElems_compact_no_nl xs d
    simp [renderJson, openGap, closeGap, h1, h2]
  | .obj [], d => by simp [renderJson]
  | .obj ((k, v) :: ms), d => by
    have h1 := renderJson_compact_no_nl v (d + 1)
    have h2 := renderMoreMembers_compact_no_nl ms d
    have hk := escString_no_nl k
    simp [renderJson, renderMember, openGap, closeGap, colonGap, h1, h2, hk]

theorem renderMoreElems_compact_no_nl : ∀ (xs : List Json) (d : Nat),
    '\n' ∉ renderMoreElems false d xs
  | [], d => by simp [renderMoreElems]
  | x :: xs, d => by
    have h1 := renderJson_compact_no_nl x (d + 1)
    have h2 := renderMoreElems_compact_no_nl xs d
    simp [renderMoreElems, openGap, h1, h2]

theorem renderMoreMembers_compact_no_nl : ∀ (ms : List (List Char × Json)) (d : Nat),
    '\n' ∉ renderMoreMembers false d ms
  | [], d => by simp [renderMoreMembers]
  | (k, v) :: ms, d => by
    have h1 := renderJson_compact_no_nl v (d + 1)
    have h2 := renderMoreMembers_compact_no_nl ms d
    have hk := escString_no_nl k
    simp [renderMoreMembers, renderMember, openGap, colonGap, h1, h2, hk]

end

end AgentCommander

namespace AgentCommander

/-! ## Lemmas: line splitting of compact NDJSON output -/

theorem splitNl_line (s : List Char) (h : '\n' ∉ s) :
    splitNl (s ++ ['\n']) = ([s], []) := by
  induction s with
  | nil => rfl
  | cons c t ih =>
    have hc : c ≠ '\n' := by intro e; exact h (by simp [e])
    have ht : '\n' ∉ t := fun e => h (by simp [e])
    simp [List.cons_append, splitNl_cons, if_neg hc, ih ht, consFirst]

theorem stripCr_concat (m : List Char) (cl : Char) (h : cl ≠ '\r') :
    stripCr (m ++ [cl]) = m ++ [cl] := by
  unfold stripCr
  rw [List.getLast?_concat]
  rw [if_neg (by simp [h])]

theorem splitNl_joined_lines (ss : List (List Char)) (h : ∀ s ∈ ss, '\n' ∉ s) :
    splitNl ((ss.map (fun s => s ++ ['\n'])).flatten) = (ss, []) := by
  induction ss with
  | nil => rfl
  | cons s ss' ih =>
    have h1 : '\n' ∉ s := h s (by simp)
    have h2 : ∀ x ∈ ss', '\n' ∉ x := fun x hx => h x (by simp [hx])
    rw [List.map_cons, List.flatten_cons, splitNl_append, splitNl_line s h1]
    simp [ih h2]

theorem map_stripCr_id : ∀ ss : List (List Char), (∀ s ∈ ss, stripCr s = s) →
    ss.map stripCr = ss := by
  intro ss
  induction ss with
  | nil => intro _; rfl
  | cons s ss' ih =>
    intro h
    simp [h s (by simp), ih (fun x hx => h x (by simp [hx]))]

theorem rustLines_of_lines (ss : List (List Char)) (hnl : ∀ s ∈ ss, '\n' ∉ s)
    (hcr : ∀ s ∈ ss, stripCr s = s) :
    rustLines ((ss.map (fun s => s ++ ['\n'])).flatten) = ss := by
  unfold rustLines
  simp only [splitNl_joined_lines ss hnl, if_true]
  exact map_stripCr_id ss hcr

end AgentCommander

namespace AgentCommander

theorem filterMap_parse_render_compact : ∀ vs : List Json,
    (∀ v ∈ vs, v.isContainer = true) →
    List.filterMap parse_ndjson_line (vs.map jsonToString) = vs := by
  intro vs
  induction vs with
  | nil => intro _; rfl
  | cons v vs' ih =>
    intro h
    rw [List.map_cons, List.filterMap_cons,
        show parse_ndjson_line (jsonToString v) = some v from
          parse_ndjson_line_render false v (h v (by simp)),
        ih (fun x hx => h x (by simp [hx]))]

theorem parse_ndjson_stringify_compact (vs : List Json)
    (h : ∀ v ∈ vs, v.isContainer = true) :
    parse_ndjson (stringify_ndjson vs true) = vs := by
  unfold parse_ndjson stringify_ndjson
  have hmap : vs.map (fun v => stringify_ndjson_line v true)
      = (vs.map jsonToString).map (fun s => s ++ ['\n']) := by
    rw [List.map_map]
    apply List.map_congr_left
    intro v hv
    simp [Function.comp, stringify_ndjson_line, isNull_false_of_container v (h v hv)]
  rw [hmap]
  have hnl : ∀ s ∈ vs.map jsonToString, '\n' ∉ s := by
    intro s hs
    simp only [List.mem_map] at hs
    obtain ⟨v, hv, rfl⟩ := hs
    exact renderJson_compact_no_nl v 0
  have hcr : ∀ s ∈ vs.map jsonToString, stripCr s = s := by
    intro s hs
    simp only [List.mem_map] at hs
    obtain ⟨v, hv, rfl⟩ := hs
    obtain ⟨m, cl, hl, _, hr⟩ := renderJson_container_last false 0 v (h v hv)
    rw [show jsonToString v = m ++ [cl] from hl]
    exact stripCr_concat m cl hr
  rw [rustLines_of_lines (vs.map jsonToString) hnl hcr]
  exact filterMap_parse_render_compact vs h

/-- C10: the whole-stream round trip recovers a list of objects/arrays exactly
in compact mode: `parse_ndjson (stringify_ndjson vs true) = vs` for every such
list, while the pretty mode loses the two-field object `\x7ba:1, b:2\x7d` —
its multi-line rendering is consumed line by line and every line fails to
parse on its own. -/
theorem c10_whole_stream_round_trip :
    (∀ vs : List Json, (∀ v ∈ vs, v.isContainer = true) →
        parse_ndjson (stringify_ndjson vs true) = vs)
    ∧ parse_ndjson (stringify_ndjson
          [Json.obj [(['a'], Json.num 1), (['b'], Json.num 2)]] false)
        ≠ [Json.obj [(['a'], Json.num 1), (['b'], Json.num 2)]] := by
  refine ⟨parse_ndjson_stringify_compact, ?_⟩
  intro hcontra
  have h1 : parse_ndjson (stringify_ndjson
      [Json.obj [(['a'], Json.num 1), (['b'], Json.num 2)]] false) = [] := by rfl
  rw [h1] at hcontra
  exact List.noConfusion hcontra

/-- Witness for C10's compact identity at a concrete two-element list. -/
theorem c10_whole_stream_round_trip_witness :
    parse_ndjson (stringify_ndjson
        [Json.obj [(['a'], Json.num 1)], Json.arr [Json.num 2]] true)
      = [Json.obj [(['a'], Json.num 1)], Json.arr [Json.num 2]] :=
  c10_whole_stream_round_trip.1 _ (by decide)

end AgentCommander

namespace AgentCommander

/-! ## Controller claims -/

/-- C5: constructing the controller fails exactly when the tool identifier is
empty, or the working directory is empty, or screen isolation lacks a screen
name, or docker isolation lacks a container name; in the screen-without-name
case (reached when tool and working directory are present) the error message
mentions the `screen_name` field.  `Agent.new` is a pure function: no process
operation exists in its model or its source. -/
theorem c5_construction_validation (opts : AgentOptions) :
    ((∃ e, Agent.new opts = .error e) ↔
      (opts.tool = [] ∨ opts.working_directory = []
        ∨ (opts.isolation = "screen".toList ∧ opts.screen_name = none)
        ∨ (opts.isolation = "docker".toList ∧ opts.container_name = none)))
    ∧ (opts.tool ≠ [] → opts.working_directory ≠ [] →
        opts.isolation = "screen".toList → opts.screen_name = none →
        Agent.new opts = .error "screen_name is required for screen isolation".toList
          ∧ ∃ l r, "screen_name is required for screen isolation".toList
              = l ++ "screen_name".toList ++ r) := by
  constructor
  · constructor
    · intro h
      by_cases h1 : opts.tool = []
      · exact Or.inl h1
      by_cases h2 : opts.working_directory = []
      · exact Or.inr (Or.inl h2)
      by_cases h3 : opts.isolation = "screen".toList ∧ opts.screen_name = none
      · exact Or.inr (Or.inr (Or.inl h3))
      by_cases h4 : opts.isolation = "docker".toList ∧ opts.container_name = none
      · exact Or.inr (Or.inr (Or.inr h4))
      obtain ⟨e, he⟩ := h
      rw [Agent.new, if_neg h1, if_neg h2, if_neg h3, if_neg h4] at he
      exact Except.noConfusion he
    · intro h
      by_cases h1 : opts.tool = []
      · exact ⟨_, by rw [Agent.new, if_pos h1]⟩
      by_cases h2 : opts.working_directory = []
      · exact ⟨_, by rw [Agent.new, if_neg h1, if_pos h2]⟩
      by_cases h3 : opts.isolation = "screen".toList ∧ opts.screen_name = none
      · exact ⟨_, by rw [Agent.new, if_neg h1, if_neg h2, if_pos h3]⟩
      by_cases h4 : opts.isolation = "docker".toList ∧ opts.container_name = none
      · exact ⟨_, by rw [Agent.new, if_neg h1, if_neg h2, if_neg h3, if_pos h4]⟩
      rcases h with h | h | h | h
      · exact absurd h h1
      · exact absurd h h2
      · exact absurd h h3
      · exact absurd h h4
  · intro h1 h2 h3 h4
    refine ⟨?_, [], " is required for screen isolation".toList, by decide⟩
    rw [Agent.new, if_neg h1, if_neg h2, if_pos ⟨h3, h4⟩]

/-- Witness for C5 at a concrete configuration with screen isolation and no
screen name. -/
theorem c5_construction_validation_witness :
    Agent.new { tool := "claude".toList, working_directory := "/tmp".toList,
                isolation := "screen".toList }
      = .error "screen_name is required for screen isolation".toList
    ∧ ∃ l r, "screen_name is required for screen isolation".toList
        = l ++ "screen_name".toList ++ r :=
  (c5_construction_validation
    { tool := "claude".toList, working_directory := "/tmp".toList,
      isolation := "screen".toList }).2 (by decide) (by decide) rfl rfl

/-- C4: a dry-run start spawns no subprocess — for any configuration,
isolation mode, and start options — and the synthesized dry-run result of the
executor always has exit code 0 and empty stdout and stderr. -/
theorem c4_dry_run_no_spawn (w : World) (command : List Char) (attached : Bool)
    (ext : Externals) (a : Agent) (so : AgentStartOptions)
    (hso : so.dry_run = true) :
    execute_command w command true attached
      = ({ exit_code := 0, stdout := [], stderr := [], command := command }, [])
    ∧ (Agent.start ext w a so).2.2 = []
    ∧ (Agent.start ext w a so).1 = .ok () := by
  refine ⟨rfl, ?_, ?_⟩ <;> simp [Agent.start, hso]

/-- Witness for C4 at a concrete world, command, and docker-isolated agent. -/
theorem c4_dry_run_no_spawn_witness :
    execute_command sampleWorld "echo hello".toList true false
      = ({ exit_code := 0, stdout := [], stderr := [],
           command := "echo hello".toList }, [])
    ∧ (Agent.start sampleExternals sampleWorld
        { options := { tool := "claude".toList, working_directory := "/tmp".toList,
                       isolation := "docker".toList,
                       container_name := some "box".toList },
          process_handle := none, output_stream := none, session_id := none }
        { dry_run := true }).2.2 = []
    ∧ (Agent.start sampleExternals sampleWorld
        { options := { tool := "claude".toList, working_directory := "/tmp".toList,
                       isolation := "docker".toList,
                       container_name := some "box".toList },
          process_handle := none, output_stream := none, session_id := none }
        { dry_run := true }).1 = .ok () :=
  c4_dry_run_no_spawn sampleWorld "echo hello".toList false sampleExternals _ _ rfl

theorem wait_for_exit_idem (h : ProcessHandle) :
    (h.wait_for_exit.2).wait_for_exit = (h.wait_for_exit.1, h.wait_for_exit.2) := by
  cases hc : h.exit_code with
  | some c => simp [ProcessHandle.wait_for_exit, hc]
  | none =>
    cases hch : h.child with
    | some ch => simp [ProcessHandle.wait_for_exit, hc, hch]
    | none => simp [ProcessHandle.wait_for_exit, hc, hch]

/-- C1 counterexample: with isolation `none`, after a successful non-detached
start and a first stop that returned a result, the second `stop` does *not*
fail with a "not started" error — the handle is only borrowed (`as_mut`), so
the call succeeds again with the cached exit code. -/
theorem c1_counterexample :
    (Agent.stop sampleExternals sampleWorld
        ((Agent.stop sampleExternals sampleWorld
            ((Agent.start sampleExternals sampleWorld
                { options := sampleOptions, process_handle := none,
                  output_stream := none, session_id := none } {}).2.1) {}).2.1) {}).1
      = Except.ok { exit_code := 0, plain_output := "hi\n".toList,
                    parsed_output := none, session_id := none } := by
  rfl

/-- C1 (amended): with isolation `none` (or empty) and a stored handle, the
first `stop` returns a result; a second `stop` does not fail — the handle is
borrowed, not consumed — and returns the same exit code and the same plain
output without re-executing the process (neither call spawns a command, and
the second wait reuses the already-drained handle). -/
theorem c1_stop_twice (ext : Externals) (w : World) (a : Agent)
    (hiso : a.options.isolation = "none".toList
      ∨ a.options.isolation = ([] : List Char))
    (hd : ProcessHandle) (hh : a.process_handle = some hd) :
    ∃ r1 r2 : AgentResult,
      (Agent.stop ext w a {}).1 = .ok r1
      ∧ (Agent.stop ext w (Agent.stop ext w a {}).2.1 {}).1 = .ok r2
      ∧ r2.exit_code = r1.exit_code
      ∧ r2.plain_output = r1.plain_output
      ∧ (Agent.stop ext w a {}).2.2 = []
      ∧ (Agent.stop ext w (Agent.stop ext w a {}).2.1 {}).2.2 = []
      ∧ ((Agent.stop ext w a {}).2.1).process_handle = some hd.wait_for_exit.2 := by
  have hns : ¬(a.options.isolation = "screen".toList
      ∨ a.options.isolation = "docker".toList) := by
    rcases hiso with h | h <;> rw [h] <;> decide
  obtain ⟨opts, ph, os, sid⟩ := a
  simp only at hh
  subst hh
  simp only [Agent.stop, if_neg hns, if_pos hiso, wait_for_exit_idem]
  exact ⟨_, _, rfl, rfl, rfl, rfl, trivial, trivial, trivial⟩

/-- Witness for C1's amended statement at the concrete started agent. -/
theorem c1_stop_twice_witness :
    ∃ r1 r2 : AgentResult,
      (Agent.stop sampleExternals sampleWorld
          ((Agent.start sampleExternals sampleWorld
              { options := sampleOptions, process_handle := none,
                output_stream := none, session_id := none } {}).2.1) {}).1 = .ok r1
      ∧ (Agent.stop sampleExternals sampleWorld
          (Agent.stop sampleExternals sampleWorld
              ((Agent.start sampleExternals sampleWorld
                  { options := sampleOptions, process_handle := none,
                    output_stream := none, session_id := none } {}).2.1) {}).2.1
          {}).1 = .ok r2
      ∧ r2.exit_code = r1.exit_code
      ∧ r2.plain_output = r1.plain_output := by
  obtain ⟨r1, r2, h1, h2, h3, h4, _⟩ :=
    c1_stop_twice sampleExternals sampleWorld
      ((Agent.start sampleExternals sampleWorld
          { options := sampleOptions, process_handle := none,
            output_stream := none, session_id := none } {}).2.1)
      (Or.inl rfl) _ rfl
  exact ⟨r1, r2, h1, h2, h3, h4⟩

end AgentCommander
